import Mathlib

/-!
# The associative set of `src/mem/cache/tags/cacheset.hh`

A shallow embedding of `CacheSet<Blktype>`: the slot array `blks` kept in LRU
order, the composite-key index `lnregMap`, the lookups `findBlk`, `mapLookup`,
`inMap`, and the two reordering operations `moveToHead` and `moveToTail`.

Conventions of the embedding.

* A `Blktype*` is a `BlkPtr`: `none` is `NULL`, `some a` is the address `a` of a
  block object. The slots of a set are dereferenced by the source without a null
  test, so a slot holds a `BlkRef` (a non-null pointer); the values of
  `lnregMap` and the results of the lookups are tested against `NULL` by the
  source, so they are `BlkPtr`s.
* The block objects live outside the set. Their fields are read through a store
  `mem : BlkRef → CacheBlk`.
* `int` values are `Int`s. The only arithmetic of the source is `++i`, `--i` and
  `assoc - 1`, on values between `-1` and `assoc`, so no operation wraps.
* A call ends in an `Outcome`: it returns, it aborts on a failed `assert`, or it
  touches `blks` outside the allocated array.
-/

namespace CacheSet

/-- An address tag (`Addr` is an unsigned 64-bit integer; tags are only compared). -/
abbrev Addr := Nat

/-- The address of a block object: a non-null `Blktype*`. -/
abbrev BlkRef := Nat

/-- A nullable `Blktype*`: `none` is `NULL`. -/
abbrev BlkPtr := Option BlkRef

/-- Modelled from the spec: the block type of `mem/cache/blk.hh`, which is not
among the sources. The set reads two things of a block, its `tag` field and its
`isValid()` predicate. -/
structure CacheBlk where
  tag : Addr
  valid : Bool
deriving DecidableEq, Repr

/-- The validity predicate `isValid()` of a block. -/
def CacheBlk.isValid (b : CacheBlk) : Bool := b.valid

/-- The search key `CamKey` with its three `int` fields. -/
structure CamKey where
  rmtid : Int
  P_bit : Int
  lnreg : Int
deriving DecidableEq, Repr

/-- The comparator `CamKey::operator<`. -/
def CamKey.lt (a key : CamKey) : Bool :=
  if a.rmtid = key.rmtid then
    if a.P_bit = key.P_bit then
      decide (a.lnreg < key.lnreg)
    else
      decide (a.P_bit < key.P_bit)
  else
    decide (a.rmtid < key.rmtid)

/-- The spec's order on keys, in its own words: lexicographic on
`(remoteId, presenceBit, logicalRegister)`, here through the library's
lexicographic order on triples. -/
def CamKey.lexLt (a b : CamKey) : Prop :=
  toLex (a.rmtid, toLex (a.P_bit, a.lnreg)) < toLex (b.rmtid, toLex (b.P_bit, b.lnreg))

/-- The container `map_t = std::map<CamKey, Blktype*>`, as the sequence of its
entries in iteration order. The container keeps them in strictly ascending key
order under `CamKey::operator<` (see `map_t.Ordered`). -/
abbrev map_t := List (CamKey × BlkPtr)

/-- The invariant of `std::map`: the entries are in strictly ascending key order
under the comparator. -/
def map_t.Ordered (m : map_t) : Prop :=
  m.Pairwise (fun a b => a.1.lt b.1 = true)

instance (m : map_t) : Decidable m.Ordered := by
  unfold map_t.Ordered; infer_instance

/-- The member `std::map::find`, which uses nothing but the comparator: go to the
first entry whose key is not less than `key` (the lower bound); that entry is the
result unless `key` is less than its key. `none` is the iterator `end()`. -/
def map_t.find : map_t → CamKey → Option (CamKey × BlkPtr)
  | [], _ => none
  | e :: rest, key =>
    if e.1.lt key then map_t.find rest key
    else if key.lt e.1 then none
    else some e

end CacheSet

/-- An associative set of cache blocks: `assoc`, the slot array `blks`
(index 0 = MRU) and the index `lnregMap`. -/
structure CacheSet where
  assoc : Int
  blks : List CacheSet.BlkRef
  lnregMap : CacheSet.map_t
deriving DecidableEq, Repr

namespace CacheSet

/-- The set owns an array of exactly `assoc` slots. -/
def WellFormed (s : CacheSet) : Prop := s.assoc = (s.blks.length : Int)

instance (s : CacheSet) : Decidable s.WellFormed := by
  unfold WellFormed; infer_instance

/-- How a call ends. -/
inductive Outcome (α : Type) where
  /-- The call returns. -/
  | ok : α → Outcome α
  /-- An `assert` fails and the program aborts. -/
  | assertFail : Outcome α
  /-- The call reads or writes `blks[i]` with `i` outside the allocated array. -/
  | outOfBounds : Outcome α
deriving DecidableEq, Repr

/-- Reading `blks[i]`; `none` when `i` is not an index of the array. -/
def rd (blks : List BlkRef) (i : Int) : Option BlkRef :=
  if 0 ≤ i then blks[i.toNat]? else none

/-- Writing `blks[i] = v`, for an index `i` of the array. -/
def wr (blks : List BlkRef) (i : Int) (v : BlkRef) : List BlkRef :=
  blks.set i.toNat v

/-- The loop of `findBlk(Addr, int&)` from index `i` on. The result is the
returned pointer with the final value of `way_id`. -/
def findBlk.loop (mem : BlkRef → CacheBlk) (s : CacheSet) (tag : Addr) (i : Int) :
    Outcome (BlkPtr × Int) :=
  if _h : i < s.assoc then
    match rd s.blks i with
    | none => .outOfBounds
    | some b =>
      if (mem b).tag = tag ∧ (mem b).isValid = true then
        .ok (some b, i)
      else
        findBlk.loop mem s tag (i + 1)
  else
    .ok (none, s.assoc)
termination_by (s.assoc - i).toNat
decreasing_by omega

/-- The lookup `findBlk(Addr tag, int& way_id)`: `way_id = assoc`, then the scan
from slot 0. -/
def findBlk (mem : BlkRef → CacheBlk) (s : CacheSet) (tag : Addr) : Outcome (BlkPtr × Int) :=
  findBlk.loop mem s tag 0

/-- The overload `findBlk(Addr tag)`, which drops the way id. -/
def findBlk1 (mem : BlkRef → CacheBlk) (s : CacheSet) (tag : Addr) : Outcome BlkPtr :=
  match findBlk mem s tag with
  | .ok r => .ok r.1
  | .assertFail => .assertFail
  | .outOfBounds => .outOfBounds

/-- The member `setKey(rmtid, P_bit, lnreg)`, which builds a key. -/
def setKey (rmtid P_bit lnreg : Int) : CamKey := ⟨rmtid, P_bit, lnreg⟩

/-- The lookup `mapLookup(rmtid, P_bit, lnreg)`: `find` on the key built from
the three arguments; the mapped pointer when the iterator is not `end()`, else
`NULL`. -/
def mapLookup (s : CacheSet) (rmtid P_bit lnreg : Int) : BlkPtr :=
  let key : CamKey := ⟨rmtid, P_bit, lnreg⟩
  match s.lnregMap.find key with
  | some e => e.2
  | none => none

/-- The test `inMap(rmtid, P_bit, lnreg)`. -/
def inMap (s : CacheSet) (rmtid P_bit lnreg : Int) : Bool :=
  match mapLookup s rmtid P_bit lnreg with
  | some _ => true
  | none => false

/-- The lookup `findBlk(rmtid, P_bit, lnreg, tag)`. -/
def findBlk4 (mem : BlkRef → CacheBlk) (s : CacheSet) (rmtid P_bit lnreg : Int) (tag : Addr) :
    BlkPtr :=
  match mapLookup s rmtid P_bit lnreg with
  | some blk => if (mem blk).isValid = true ∧ (mem blk).tag = tag then some blk else none
  | none => none

/-- The `do ... while (next != blk)` loop of `moveToHead`, entered at index `i`.
`writes` is a ghost log of the indices written so far; the result is the final
array with the complete log. -/
def moveToHead.loop (assoc : Int) (blk : BlkRef) (blks : List BlkRef) (i : Int)
    (next : BlkRef) (writes : List Int) : Outcome (List BlkRef × List Int) :=
  if _h : i < assoc then
    match rd blks i with
    | none => .outOfBounds
    | some tmp =>
      if tmp ≠ blk then
        moveToHead.loop assoc blk (wr blks i next) (i + 1) tmp (writes ++ [i])
      else
        .ok (wr blks i next, writes ++ [i])
  else
    .assertFail
termination_by (assoc - i).toNat
decreasing_by omega

/-- The operation `moveToHead(blk)`. -/
def moveToHead (s : CacheSet) (blk : BlkRef) : Outcome CacheSet :=
  match rd s.blks 0 with
  | none => .outOfBounds
  | some b0 =>
    if b0 = blk then .ok s
    else
      match moveToHead.loop s.assoc blk s.blks 0 blk [] with
      | .ok r => .ok { s with blks := r.1 }
      | .assertFail => .assertFail
      | .outOfBounds => .outOfBounds

/-- The `do ... while (next != blk)` loop of `moveToTail`, entered at index `i`,
with the same ghost log as `moveToHead.loop`. -/
def moveToTail.loop (blk : BlkRef) (blks : List BlkRef) (i : Int)
    (next : BlkRef) (writes : List Int) : Outcome (List BlkRef × List Int) :=
  if _h : 0 ≤ i then
    match rd blks i with
    | none => .outOfBounds
    | some tmp =>
      if tmp ≠ blk then
        moveToTail.loop blk (wr blks i next) (i - 1) tmp (writes ++ [i])
      else
        .ok (wr blks i next, writes ++ [i])
  else
    .assertFail
termination_by (i + 1).toNat
decreasing_by omega

/-- The operation `moveToTail(blk)`. -/
def moveToTail (s : CacheSet) (blk : BlkRef) : Outcome CacheSet :=
  match rd s.blks (s.assoc - 1) with
  | none => .outOfBounds
  | some bN =>
    if bN = blk then .ok s
    else
      match moveToTail.loop blk s.blks (s.assoc - 1) blk [] with
      | .ok r => .ok { s with blks := r.1 }
      | .assertFail => .assertFail
      | .outOfBounds => .outOfBounds

/-- The condition under which the scan of `findBlk(Addr, int&)` stops at a slot:
`blks[i]->tag == tag && blks[i]->isValid()`. -/
def Hit (mem : BlkRef → CacheBlk) (tag : Addr) (b : BlkRef) : Prop :=
  (mem b).tag = tag ∧ (mem b).isValid = true

instance (mem : BlkRef → CacheBlk) (tag : Addr) : DecidablePred (Hit mem tag) := by
  intro b; unfold Hit; infer_instance

/-- The `n` consecutive indices from `d` on, in ascending order. -/
def idxFrom (d n : Nat) : List Int :=
  (List.range n).map (fun k => ((d + k : Nat) : Int))

/-- One reordering call made on a set. -/
inductive Move where
  | toHead : BlkRef → Move
  | toTail : BlkRef → Move
deriving DecidableEq, Repr

/-- The block a call is made with. -/
def Move.blk : Move → BlkRef
  | .toHead b => b
  | .toTail b => b

/-- Making one call. -/
def applyMove (s : CacheSet) : Move → Outcome CacheSet
  | .toHead b => moveToHead s b
  | .toTail b => moveToTail s b

/-- Making a sequence of calls, one after the other; the sequence stops at the
first call that does not return. -/
def runMoves : CacheSet → List Move → Outcome CacheSet
  | s, [] => .ok s
  | s, m :: ms =>
    match applyMove s m with
    | .ok s' => runMoves s' ms
    | .assertFail => .assertFail
    | .outOfBounds => .outOfBounds

/-- Every call of the sequence is made with a block that is in the slot array
at the time of that call. -/
def MembersAtCall : CacheSet → List Move → Prop
  | _, [] => True
  | s, m :: ms =>
    m.blk ∈ s.blks ∧
      match applyMove s m with
      | .ok s' => MembersAtCall s' ms
      | .assertFail => True
      | .outOfBounds => True

/-- A store of four block objects, at the addresses 1 to 4: blocks 2 and 3 are
valid with the same tag 42, block 1 is valid with tag 41, block 4 (and every
other address) is invalid with tag 44. -/
def demoMem : BlkRef → CacheBlk := fun a =>
  if a = 1 then ⟨41, true⟩
  else if a = 2 then ⟨42, true⟩
  else if a = 3 then ⟨42, true⟩
  else ⟨44, false⟩

/-- A set of four slots over `demoMem`, with three index entries, one of which
maps its key to `NULL`. -/
def demoSet : CacheSet :=
  { assoc := 4
    blks := [1, 2, 3, 4]
    lnregMap := [(⟨7, 1, 3⟩, some 2), (⟨7, 1, 4⟩, some 4), (⟨8, 0, 0⟩, none)] }

/-- The operation `moveToHead(blk)` with the ghost log of its loop: the slot
indices written, one per iteration, in the order of the writes. The log is empty
when the call returns before the loop. -/
def moveToHeadLog (s : CacheSet) (blk : BlkRef) : Outcome (CacheSet × List Int) :=
  match rd s.blks 0 with
  | none => .outOfBounds
  | some b0 =>
    if b0 = blk then .ok (s, [])
    else
      match moveToHead.loop s.assoc blk s.blks 0 blk [] with
      | .ok r => .ok ({ s with blks := r.1 }, r.2)
      | .assertFail => .assertFail
      | .outOfBounds => .outOfBounds

/-- The operation `moveToTail(blk)` with the ghost log of its loop, as for
`moveToHeadLog`. -/
def moveToTailLog (s : CacheSet) (blk : BlkRef) : Outcome (CacheSet × List Int) :=
  match rd s.blks (s.assoc - 1) with
  | none => .outOfBounds
  | some bN =>
    if bN = blk then .ok (s, [])
    else
      match moveToTail.loop blk s.blks (s.assoc - 1) blk [] with
      | .ok r => .ok ({ s with blks := r.1 }, r.2)
      | .assertFail => .assertFail
      | .outOfBounds => .outOfBounds

/-- Forgetting the ghost log of a call. -/
def dropLog : Outcome (CacheSet × List Int) → Outcome CacheSet
  | .ok r => .ok r.1
  | .assertFail => .assertFail
  | .outOfBounds => .outOfBounds

/-- At most one valid block among the slots carries any given tag. -/
def UniqueTags (mem : BlkRef → CacheBlk) (s : CacheSet) : Prop :=
  ∀ x ∈ s.blks, ∀ y ∈ s.blks,
    (mem x).isValid = true → (mem y).isValid = true → (mem x).tag = (mem y).tag → x = y

instance (mem : BlkRef → CacheBlk) (s : CacheSet) : Decidable (UniqueTags mem s) := by
  unfold UniqueTags; infer_instance

/-- A store in which every block is valid and the block at address `a` has the
tag `100 + a`. -/
def tagMem : BlkRef → CacheBlk := fun a => ⟨100 + a, true⟩

/-- A set of two slots whose index maps `(7, 1, 3)` to block 9, which is in no
slot. -/
def staleSet : CacheSet :=
  { assoc := 2
    blks := [1, 2]
    lnregMap := [(⟨7, 1, 3⟩, some 9)] }

/-- A store for `staleSet`: block 9 is valid with tag 77, and the block at any other
address `a` is valid with tag `a`. -/
def staleMem : BlkRef → CacheBlk := fun a =>
  if a = 9 then ⟨77, true⟩ else ⟨a, true⟩

end CacheSet

namespace CacheSet

/-! ## The comparator -/

theorem CamKey.lt_iff (a b : CamKey) :
    a.lt b = true ↔
      a.rmtid < b.rmtid ∨
        (a.rmtid = b.rmtid ∧ (a.P_bit < b.P_bit ∨ (a.P_bit = b.P_bit ∧ a.lnreg < b.lnreg))) := by
  unfold CamKey.lt
  split_ifs with h1 h2 <;> simp <;> omega

theorem CamKey.lt_eq_false_iff (a b : CamKey) :
    a.lt b = false ↔ ¬ (a.lt b = true) := by
  cases a.lt b <;> simp

theorem CamKey.lt_irrefl (a : CamKey) : a.lt a = false := by
  rw [CamKey.lt_eq_false_iff, CamKey.lt_iff]; omega

theorem CamKey.lt_trans {a b c : CamKey} (hab : a.lt b = true) (hbc : b.lt c = true) :
    a.lt c = true := by
  rw [CamKey.lt_iff] at *; omega

theorem CamKey.lt_asymm {a b : CamKey} (hab : a.lt b = true) : b.lt a = false := by
  rw [CamKey.lt_eq_false_iff]; rw [CamKey.lt_iff] at *; omega

theorem CamKey.ext_fields {a b : CamKey} (h1 : a.rmtid = b.rmtid) (h2 : a.P_bit = b.P_bit)
    (h3 : a.lnreg = b.lnreg) : a = b := by
  cases a; cases b; simp_all

theorem CamKey.eq_of_not_lt {a b : CamKey} (hab : a.lt b = false) (hba : b.lt a = false) :
    a = b := by
  rw [CamKey.lt_eq_false_iff, CamKey.lt_iff] at hab hba
  apply CamKey.ext_fields <;> omega

theorem CamKey.lt_iff_lexLt (a b : CamKey) : a.lt b = true ↔ CamKey.lexLt a b := by
  rw [CamKey.lt_iff]
  unfold CamKey.lexLt
  simp only [Prod.Lex.lt_iff]

end CacheSet

namespace CacheSet

/-! ## The index -/

/-- What `find` returns is an entry of the container, and its key is the key
looked for. -/
theorem map_t.find_some {m : map_t} {key : CamKey} {e : CamKey × BlkPtr}
    (h : m.find key = some e) : e ∈ m ∧ e.1 = key := by
  induction m with
  | nil => simp [map_t.find] at h
  | cons x rest ih =>
    unfold map_t.find at h
    split_ifs at h with h1 h2
    · exact ⟨List.mem_cons_of_mem _ (ih h).1, (ih h).2⟩
    · simp only [Option.some.injEq] at h
      subst h
      refine ⟨List.mem_cons_self _ _, ?_⟩
      exact CamKey.eq_of_not_lt (by simpa using h1) (by simpa using h2)

/-- In an ordered container `find` reaches every entry through its key. -/
theorem map_t.find_of_mem {m : map_t} (hm : m.Ordered) {key : CamKey} {v : BlkPtr}
    (h : (key, v) ∈ m) : m.find key = some (key, v) := by
  induction m with
  | nil => simp at h
  | cons x rest ih =>
    unfold map_t.Ordered at hm
    rw [List.pairwise_cons] at hm
    unfold map_t.find
    rcases List.mem_cons.1 h with h | h
    · subst h
      simp [CamKey.lt_irrefl]
    · have hlt := hm.1 _ h
      simp only [hlt, if_true]
      exact ih hm.2 h

/-- With no entry under the key, `find` returns `end()`. -/
theorem map_t.find_none {m : map_t} {key : CamKey} (h : ∀ v, (key, v) ∉ m) :
    m.find key = none := by
  cases hf : m.find key with
  | none => rfl
  | some e =>
    obtain ⟨hmem, hk⟩ := map_t.find_some hf
    exact absurd (by rw [← hk]; exact hmem) (h e.2)

end CacheSet

namespace CacheSet

/-! ## Reading and writing slots -/

theorem rd_length_append (done : List BlkRef) (x : BlkRef) (rest : List BlkRef) :
    rd (done ++ x :: rest) (done.length : Int) = some x := by
  unfold rd
  rw [if_pos (by omega), Int.toNat_ofNat, List.getElem?_append_right (le_refl _)]
  simp

theorem rd_of_length_le (blks : List BlkRef) (i : Int) (h : (blks.length : Int) ≤ i) :
    rd blks i = none := by
  unfold rd
  split_ifs with h0
  · rw [List.getElem?_eq_none_iff]; omega
  · rfl

theorem rd_neg (blks : List BlkRef) (i : Int) (h : i < 0) : rd blks i = none := by
  unfold rd
  rw [if_neg (by omega)]

theorem wr_length_append (done : List BlkRef) (x v : BlkRef) (rest : List BlkRef) :
    wr (done ++ x :: rest) (done.length : Int) v = done ++ v :: rest := by
  simp [wr]

/-- A list either has no element with the property, or splits at the first one. -/
theorem exists_first_split {α : Type} (p : α → Prop) [DecidablePred p] (l : List α) :
    (∀ x ∈ l, ¬ p x) ∨
      ∃ pre b post, l = pre ++ b :: post ∧ p b ∧ ∀ x ∈ pre, ¬ p x := by
  induction l with
  | nil => left; simp
  | cons a l ih =>
    by_cases ha : p a
    · right; exact ⟨[], a, l, rfl, ha, by simp⟩
    · rcases ih with h | ⟨pre, b, post, hl, hb, hpre⟩
      · left
        intro x hx
        rcases List.mem_cons.1 hx with rfl | hx
        · exact ha
        · exact h x hx
      · right
        refine ⟨a :: pre, b, post, by simp [hl], hb, ?_⟩
        intro x hx
        rcases List.mem_cons.1 hx with rfl | hx
        · exact ha
        · exact hpre x hx

/-- A list either has no element with the property, or splits at the last one. -/
theorem exists_last_split {α : Type} (p : α → Prop) [DecidablePred p] (l : List α) :
    (∀ x ∈ l, ¬ p x) ∨
      ∃ pre b post, l = pre ++ b :: post ∧ p b ∧ ∀ x ∈ post, ¬ p x := by
  rcases exists_first_split p l.reverse with h | ⟨pre, b, post, hl, hb, hpre⟩
  · left
    intro x hx
    exact h x (List.mem_reverse.2 hx)
  · right
    refine ⟨post.reverse, b, pre.reverse, ?_, hb, ?_⟩
    · have := congrArg List.reverse hl
      simpa using this
    · intro x hx
      exact hpre x (List.mem_reverse.1 hx)

/-! ## The tag scan -/

theorem findBlk_loop_miss (mem : BlkRef → CacheBlk) (s : CacheSet) (tag : Addr)
    (hs : s.WellFormed) (rest : List BlkRef) :
    ∀ done : List BlkRef, s.blks = done ++ rest → (∀ x ∈ rest, ¬ Hit mem tag x) →
      findBlk.loop mem s tag (done.length : Int) = .ok (none, s.assoc) := by
  unfold WellFormed at hs
  induction rest with
  | nil =>
    intro done hb _
    rw [findBlk.loop, dif_neg]
    rw [hs, hb]; simp
  | cons x rest ih =>
    intro done hb hmiss
    rw [findBlk.loop, dif_pos (by rw [hs, hb]; simp), hb, rd_length_append]
    have hx : ¬ Hit mem tag x := hmiss x (List.mem_cons_self _ _)
    unfold Hit at hx
    simp only [hx, if_false]
    have := ih (done ++ [x]) (by simp [hb]) (fun y hy => hmiss y (List.mem_cons_of_mem _ hy))
    simpa [hb] using this

theorem findBlk_loop_hit (mem : BlkRef → CacheBlk) (s : CacheSet) (tag : Addr)
    (hs : s.WellFormed) (b : BlkRef) (post : List BlkRef) (hb : Hit mem tag b)
    (pre : List BlkRef) :
    ∀ done : List BlkRef, s.blks = done ++ (pre ++ b :: post) → (∀ x ∈ pre, ¬ Hit mem tag x) →
      findBlk.loop mem s tag (done.length : Int) =
        .ok (some b, ((done.length + pre.length : Nat) : Int)) := by
  unfold WellFormed at hs
  induction pre with
  | nil =>
    intro done hblks _
    rw [findBlk.loop, dif_pos (by rw [hs, hblks]; simp), hblks]
    simp only [List.nil_append, rd_length_append]
    unfold Hit at hb
    simp [hb]
  | cons x pre ih =>
    intro done hblks hmiss
    rw [findBlk.loop, dif_pos (by rw [hs, hblks]; simp; omega), hblks]
    simp only [List.cons_append, rd_length_append]
    have hx : ¬ Hit mem tag x := hmiss x (List.mem_cons_self _ _)
    unfold Hit at hx
    simp only [hx, if_false]
    have := ih (done ++ [x]) (by simp [hblks]) (fun y hy => hmiss y (List.mem_cons_of_mem _ hy))
    simp only [List.length_append, List.length_singleton, List.length_cons, List.length_nil,
      Nat.zero_add] at this ⊢
    rw [show ((done.length : Int) + 1) = ((done.length + 1 : Nat) : Int) by simp]
    rw [this]
    congr 3
    omega

end CacheSet

namespace CacheSet

/-! ## The swap chains -/

theorem idxFrom_succ_left (d n : Nat) :
    idxFrom d (n + 1) = (d : Int) :: idxFrom (d + 1) n := by
  unfold idxFrom
  rw [List.range_succ_eq_map]
  simp only [List.map_cons, List.map_map, Nat.add_zero, List.cons.injEq, true_and]
  apply List.map_congr_left
  intro k _
  simp only [Function.comp_apply]
  congr 1
  omega

theorem idxFrom_succ_right (d n : Nat) :
    idxFrom d (n + 1) = idxFrom d n ++ [((d + n : Nat) : Int)] := by
  unfold idxFrom
  rw [List.range_succ]
  simp

theorem moveToHead_loop_present (assoc : Int) (blk : BlkRef) (post : List BlkRef)
    (pre : List BlkRef) :
    ∀ (done : List BlkRef) (next : BlkRef) (writes : List Int),
      assoc = ((done ++ (pre ++ blk :: post)).length : Int) → blk ∉ pre →
      moveToHead.loop assoc blk (done ++ (pre ++ blk :: post)) (done.length : Int) next writes =
        .ok (done ++ (next :: pre ++ post), writes ++ idxFrom done.length (pre.length + 1)) := by
  induction pre with
  | nil =>
    intro done next writes hN _
    rw [moveToHead.loop, dif_pos (by rw [hN]; simp)]
    simp only [List.nil_append, rd_length_append, wr_length_append]
    simp [idxFrom, List.range_succ]
  | cons p pre ih =>
    intro done next writes hN hpre
    have hp : p ≠ blk := fun h => hpre (by simp [h])
    have hpre2 : blk ∉ pre := fun h => hpre (List.mem_cons_of_mem _ h)
    rw [moveToHead.loop, dif_pos (by rw [hN]; simp; omega)]
    simp only [List.cons_append, rd_length_append, wr_length_append]
    rw [if_pos hp]
    have := ih (done ++ [next]) p (writes ++ [(done.length : Int)]) (by rw [hN]; simp) hpre2
    simp only [List.length_append, List.length_singleton, List.append_assoc,
      List.singleton_append, Nat.cast_add, Nat.cast_one, List.length_cons, List.cons_append,
      List.nil_append, List.length_nil, Nat.zero_add] at this ⊢
    rw [this, idxFrom_succ_left done.length (pre.length + 1)]

theorem moveToHead_loop_absent (assoc : Int) (blk : BlkRef) (rest : List BlkRef) :
    ∀ (done : List BlkRef) (next : BlkRef) (writes : List Int),
      assoc = ((done ++ rest).length : Int) → blk ∉ rest →
      moveToHead.loop assoc blk (done ++ rest) (done.length : Int) next writes =
        .assertFail := by
  induction rest with
  | nil =>
    intro done next writes hN _
    rw [moveToHead.loop, dif_neg (by rw [hN]; simp)]
  | cons p rest ih =>
    intro done next writes hN hrest
    have hp : p ≠ blk := fun h => hrest (by simp [h])
    have hrest2 : blk ∉ rest := fun h => hrest (List.mem_cons_of_mem _ h)
    rw [moveToHead.loop, dif_pos (by rw [hN]; simp)]
    simp only [rd_length_append, wr_length_append]
    rw [if_pos hp]
    have := ih (done ++ [next]) p (writes ++ [(done.length : Int)]) (by rw [hN]; simp) hrest2
    simpa using this

end CacheSet

namespace CacheSet

theorem moveToTail_loop_present (blk : BlkRef) (pre : List BlkRef) (post : List BlkRef) :
    ∀ (done : List BlkRef) (next : BlkRef) (writes : List Int), blk ∉ post →
      moveToTail.loop blk ((pre ++ blk :: post) ++ done)
          ((pre.length + post.length : Nat) : Int) next writes =
        .ok (pre ++ post ++ next :: done,
          writes ++ (idxFrom pre.length (post.length + 1)).reverse) := by
  induction post using List.reverseRecOn with
  | nil =>
    intro done next writes _
    have harr : (pre ++ [blk]) ++ done = pre ++ blk :: done := by simp
    rw [moveToTail.loop, dif_pos (by omega)]
    simp only [List.length_nil, Nat.add_zero, harr, rd_length_append, wr_length_append]
    simp [idxFrom, List.range_succ]
  | append_singleton post q ih =>
    intro done next writes hpost
    have hq : q ≠ blk := fun h => hpost (by simp [h])
    have hpost2 : blk ∉ post := fun h => hpost (by simp [h])
    have harr : (pre ++ blk :: (post ++ [q])) ++ done = (pre ++ blk :: post) ++ q :: done := by
      simp
    have hidx : ((pre.length + (post ++ [q]).length : Nat) : Int)
        = ((pre ++ blk :: post).length : Int) := by
      simp
    have hidx2 : ((pre ++ blk :: post).length : Int) - 1
        = ((pre.length + post.length : Nat) : Int) := by
      simp; omega
    rw [harr, hidx, moveToTail.loop, dif_pos (by omega)]
    simp only [rd_length_append, wr_length_append]
    rw [if_pos hq, hidx2, ih (next :: done) q _ hpost2]
    rw [idxFrom_succ_right pre.length ((post ++ [q]).length)]
    simp only [List.length_append, List.length_singleton, List.reverse_append,
      List.reverse_cons, List.reverse_nil, List.nil_append, List.append_assoc,
      List.singleton_append, List.cons_append, hidx]
    simp

theorem moveToTail_loop_absent (blk : BlkRef) (rest : List BlkRef) :
    ∀ (done : List BlkRef) (next : BlkRef) (writes : List Int), blk ∉ rest →
      moveToTail.loop blk (rest ++ done) ((rest.length : Int) - 1) next writes =
        .assertFail := by
  induction rest using List.reverseRecOn with
  | nil =>
    intro done next writes _
    rw [moveToTail.loop, dif_neg (by simp)]
  | append_singleton rest q ih =>
    intro done next writes hrest
    have hq : q ≠ blk := fun h => hrest (by simp [h])
    have hrest2 : blk ∉ rest := fun h => hrest (by simp [h])
    have harr : (rest ++ [q]) ++ done = rest ++ q :: done := by simp
    have hidx : (((rest ++ [q]).length : Nat) : Int) - 1 = (rest.length : Int) := by
      simp
    rw [harr, hidx, moveToTail.loop, dif_pos (by omega)]
    simp only [rd_length_append, wr_length_append]
    rw [if_pos hq]
    exact ih (next :: done) q _ hrest2

end CacheSet

namespace CacheSet

/-! ## The two reordering operations in closed form -/

theorem rd_zero_cons (x : BlkRef) (rest : List BlkRef) : rd (x :: rest) 0 = some x := by
  simp [rd]

theorem rd_last (front : List BlkRef) (x : BlkRef) (done : List BlkRef) (n : Int)
    (hn : n = ((front ++ x :: done).length : Int)) :
    rd (front ++ x :: done) (n - 1 - (done.length : Int)) = some x := by
  have : n - 1 - (done.length : Int) = (front.length : Int) := by
    rw [hn]; simp; omega
  rw [this, rd_length_append]

theorem moveToHead_of_split (s : CacheSet) (blk : BlkRef) (hs : s.WellFormed)
    (pre post : List BlkRef) (hblks : s.blks = pre ++ blk :: post) (hpre : blk ∉ pre) :
    moveToHead s blk = .ok { s with blks := blk :: (pre ++ post) } := by
  unfold WellFormed at hs
  cases pre with
  | nil =>
    unfold moveToHead
    simp only [List.nil_append] at hblks ⊢
    rw [hblks, rd_zero_cons]
    simp only [if_true]
    cases s
    simp_all
  | cons p pre =>
    have hp : p ≠ blk := fun h => hpre (by simp [h])
    have hpre2 : blk ∉ pre := fun h => hpre (List.mem_cons_of_mem _ h)
    have hloop := moveToHead_loop_present s.assoc blk post (p :: pre) [] blk []
      (by rw [hs, hblks]; simp) hpre
    unfold moveToHead
    simp only [List.nil_append, List.length_nil, Nat.cast_zero] at hloop
    rw [hblks]
    simp only [List.cons_append, rd_zero_cons, if_neg hp]
    simp only [List.cons_append] at hloop
    rw [hloop]

theorem moveToHead_of_not_mem (s : CacheSet) (blk : BlkRef) (hs : s.WellFormed)
    (hN : 1 ≤ s.assoc) (h : blk ∉ s.blks) : moveToHead s blk = .assertFail := by
  unfold WellFormed at hs
  cases hb : s.blks with
  | nil => rw [hb] at hs; simp at hs; omega
  | cons p rest =>
    have hp : p ≠ blk := fun hp => h (by simp [hb, hp])
    have hloop := moveToHead_loop_absent s.assoc blk (p :: rest) [] blk []
      (by rw [hs, hb]; simp) (by rw [← hb]; exact h)
    unfold moveToHead
    simp only [List.nil_append, List.length_nil, Nat.cast_zero] at hloop
    rw [hb]
    simp only [rd_zero_cons, if_neg hp]
    rw [hloop]

theorem moveToTail_of_split (s : CacheSet) (blk : BlkRef) (hs : s.WellFormed)
    (pre post : List BlkRef) (hblks : s.blks = pre ++ blk :: post) (hpost : blk ∉ post) :
    moveToTail s blk = .ok { s with blks := pre ++ post ++ [blk] } := by
  unfold WellFormed at hs
  induction post using List.reverseRecOn with
  | nil =>
    have hrd := rd_last pre blk [] s.assoc (by rw [hs, hblks])
    simp only [List.length_nil, Nat.cast_zero, sub_zero] at hrd
    unfold moveToTail
    rw [hblks, hrd]
    simp only [if_true]
    cases s
    simp_all
  | append_singleton post q _ =>
    have hq : q ≠ blk := fun h => hpost (by simp [h])
    have harr : pre ++ blk :: (post ++ [q]) = (pre ++ blk :: post) ++ q :: [] := by simp
    have hrd := rd_last (pre ++ blk :: post) q [] s.assoc (by rw [hs, hblks, harr])
    simp only [List.length_nil, Nat.cast_zero, sub_zero] at hrd
    have hidx : s.assoc - 1 = ((pre.length + (post ++ [q]).length : Nat) : Int) := by
      rw [hs, hblks]; simp; omega
    have hloop := moveToTail_loop_present blk pre (post ++ [q]) [] blk [] hpost
    simp only [List.append_nil] at hloop
    unfold moveToTail
    rw [hblks, harr, hrd]
    simp only [if_neg hq]
    rw [← harr, hidx, hloop]

theorem moveToTail_of_not_mem (s : CacheSet) (blk : BlkRef) (hs : s.WellFormed)
    (hN : 1 ≤ s.assoc) (h : blk ∉ s.blks) : moveToTail s blk = .assertFail := by
  unfold WellFormed at hs
  rcases List.eq_nil_or_concat s.blks with hb | ⟨rest, q, hb⟩
  · rw [hb] at hs; simp at hs; omega
  · rw [List.concat_eq_append] at hb
    have hq : q ≠ blk := fun hq => h (by simp [hb, hq])
    have hrd := rd_last rest q [] s.assoc (by rw [hs, hb])
    simp only [List.length_nil, Nat.cast_zero, sub_zero] at hrd
    have hloop := moveToTail_loop_absent blk (rest ++ [q]) [] blk []
      (by rw [← hb]; exact h)
    simp only [List.append_nil] at hloop
    unfold moveToTail
    rw [hb, hrd]
    simp only [if_neg hq]
    rw [hs, hb, hloop]

end CacheSet

namespace CacheSet

/-! ## The tag scan in closed form -/

/-- On a well-formed set the scan returns: with `NULL` and `way_id = assoc` when
no slot is a hit, otherwise with the first hit and its index. -/
theorem findBlk_cases (mem : BlkRef → CacheBlk) (s : CacheSet) (tag : Addr)
    (hs : s.WellFormed) :
    ((∀ x ∈ s.blks, ¬ Hit mem tag x) ∧ findBlk mem s tag = .ok (none, s.assoc)) ∨
    (∃ pre b post, s.blks = pre ++ b :: post ∧ Hit mem tag b ∧ (∀ x ∈ pre, ¬ Hit mem tag x) ∧
      findBlk mem s tag = .ok (some b, (pre.length : Int))) := by
  rcases exists_first_split (Hit mem tag) s.blks with h | ⟨pre, b, post, hblks, hb, hpre⟩
  · left
    refine ⟨h, ?_⟩
    have := findBlk_loop_miss mem s tag hs s.blks [] (by simp) h
    simpa [findBlk] using this
  · right
    refine ⟨pre, b, post, hblks, hb, hpre, ?_⟩
    have := findBlk_loop_hit mem s tag hs b post hb pre [] (by simpa using hblks) hpre
    simpa [findBlk] using this

theorem mem_of_rd_append_left (pre rest : List BlkRef) (j : Int) (x : BlkRef)
    (hj : j < (pre.length : Int)) (h : rd (pre ++ rest) j = some x) : x ∈ pre := by
  unfold rd at h
  split_ifs at h with h0
  rw [List.getElem?_append_left (by omega)] at h
  exact List.getElem?_mem h

theorem split_at_index (l : List BlkRef) (i : Nat) (b : BlkRef) (h : l[i]? = some b) :
    l = l.take i ++ b :: l.drop (i + 1) := by
  obtain ⟨hi, hb⟩ := List.getElem?_eq_some.1 h
  conv_lhs => rw [← List.take_append_drop i l, List.drop_eq_getElem_cons hi, hb]

theorem not_mem_take_of_first (l : List BlkRef) (i : Nat) (b : BlkRef)
    (h : ∀ j, j < i → l[j]? ≠ some b) : b ∉ l.take i := by
  intro hmem
  obtain ⟨n, hn⟩ := List.mem_iff_getElem?.1 hmem
  rw [List.getElem?_take] at hn
  split_ifs at hn with hlt
  exact h n hlt hn

theorem not_mem_drop_of_last (l : List BlkRef) (i : Nat) (b : BlkRef)
    (h : ∀ j, i < j → l[j]? ≠ some b) : b ∉ l.drop (i + 1) := by
  intro hmem
  obtain ⟨n, hn⟩ := List.mem_iff_getElem?.1 hmem
  rw [List.getElem?_drop] at hn
  exact h (i + 1 + n) (by omega) hn

end CacheSet

namespace CacheSet

/-! ## Sequences of calls -/

theorem moveToHead_of_mem (s : CacheSet) (b : BlkRef) (hs : s.WellFormed) (hb : b ∈ s.blks) :
    ∃ pre post, s.blks = pre ++ b :: post ∧ b ∉ pre ∧
      moveToHead s b = .ok { s with blks := b :: (pre ++ post) } := by
  rcases exists_first_split (fun x => x = b) s.blks with h | ⟨pre, x, post, hblks, rfl, hpre⟩
  · exact absurd rfl (h b hb)
  · have hpre2 : x ∉ pre := fun hx => hpre x hx rfl
    exact ⟨pre, post, hblks, hpre2, moveToHead_of_split s x hs pre post hblks hpre2⟩

theorem moveToTail_of_mem (s : CacheSet) (b : BlkRef) (hs : s.WellFormed) (hb : b ∈ s.blks) :
    ∃ pre post, s.blks = pre ++ b :: post ∧ b ∉ post ∧
      moveToTail s b = .ok { s with blks := pre ++ post ++ [b] } := by
  rcases exists_last_split (fun x => x = b) s.blks with h | ⟨pre, x, post, hblks, rfl, hpost⟩
  · exact absurd rfl (h b hb)
  · have hpost2 : x ∉ post := fun hx => hpost x hx rfl
    exact ⟨pre, post, hblks, hpost2, moveToTail_of_split s x hs pre post hblks hpost2⟩

/-- A call made with a member returns a set that differs from the old one in the
arrangement of the slots only. -/
theorem applyMove_of_mem (s : CacheSet) (m : Move) (hs : s.WellFormed) (hb : m.blk ∈ s.blks) :
    ∃ s', applyMove s m = .ok s' ∧ s'.blks.Perm s.blks ∧ s'.WellFormed ∧
      s'.assoc = s.assoc ∧ s'.lnregMap = s.lnregMap := by
  cases m with
  | toHead b =>
    obtain ⟨pre, post, hblks, _, hmove⟩ := moveToHead_of_mem s b hs hb
    refine ⟨_, hmove, ?_, ?_, rfl, rfl⟩
    · rw [hblks]; exact List.perm_middle.symm
    · unfold WellFormed at hs ⊢
      rw [hs, hblks]; simp; omega
  | toTail b =>
    obtain ⟨pre, post, hblks, _, hmove⟩ := moveToTail_of_mem s b hs hb
    refine ⟨_, hmove, ?_, ?_, rfl, rfl⟩
    · rw [hblks]
      simp only [List.append_assoc]
      exact (List.perm_append_left_iff pre).2 (List.perm_append_singleton b post)
    · unfold WellFormed at hs ⊢
      rw [hs, hblks]; simp

theorem runMoves_of_members (ms : List Move) :
    ∀ s : CacheSet, s.WellFormed → MembersAtCall s ms →
      ∃ s', runMoves s ms = .ok s' ∧ s'.blks.Perm s.blks ∧ s'.WellFormed ∧
        s'.assoc = s.assoc ∧ s'.lnregMap = s.lnregMap := by
  induction ms with
  | nil =>
    intro s hs _
    exact ⟨s, rfl, List.Perm.refl _, hs, rfl, rfl⟩
  | cons m ms ih =>
    intro s hs hm
    obtain ⟨s1, h1, hperm1, hwf1, ha1, hl1⟩ := applyMove_of_mem s m hs hm.1
    have hm2 : MembersAtCall s1 ms := by
      have := hm.2
      rw [h1] at this
      exact this
    obtain ⟨s2, h2, hperm2, hwf2, ha2, hl2⟩ := ih s1 hwf1 hm2
    refine ⟨s2, ?_, hperm2.trans hperm1, hwf2, ha2.trans ha1, hl2.trans hl1⟩
    simp only [runMoves, h1]
    exact h2

/-! ## The claims on the reordering operations -/

/-- C1: on a set of `N` slots, for a block `b` whose first occurrence in the slot
array is at index `i` (so `N ≥ 1`), `moveToHead(b)` returns, and the new slot
array is `b`, then the former slots `0..i-1` in their order, then the former slots
`i+1..N-1` unchanged; slot 0 holds `b` afterwards and the array keeps its
length. -/
theorem moveToHead_rotates (s : CacheSet) (b : BlkRef) (i : Nat) (hs : s.WellFormed)
    (hi : s.blks[i]? = some b) (hfirst : ∀ j, j < i → s.blks[j]? ≠ some b) :
    moveToHead s b = .ok { s with blks := [b] ++ s.blks.take i ++ s.blks.drop (i + 1) } ∧
      rd ([b] ++ s.blks.take i ++ s.blks.drop (i + 1)) 0 = some b ∧
      ([b] ++ s.blks.take i ++ s.blks.drop (i + 1)).length = s.blks.length := by
  have hsplit := split_at_index s.blks i b hi
  refine ⟨?_, ?_, ?_⟩
  · have := moveToHead_of_split s b hs _ _ hsplit (not_mem_take_of_first s.blks i b hfirst)
    simpa using this
  · simp [rd_zero_cons]
  · have := congrArg List.length hsplit
    simp only [List.length_append, List.length_cons, List.length_nil] at this ⊢
    omega

/-- Witness of C1 on `demoSet`: block 3 sits at index 2, and the call turns
`[1, 2, 3, 4]` into `[3, 1, 2, 4]`. -/
theorem moveToHead_rotates_witness :
    demoSet.WellFormed ∧ demoSet.blks[2]? = some 3 ∧
      (∀ j, j < 2 → demoSet.blks[j]? ≠ some 3) ∧
      moveToHead demoSet 3 = .ok { demoSet with blks := [3, 1, 2, 4] } :=
  ⟨by decide, by decide, by decide,
    (moveToHead_rotates demoSet 3 2 (by decide) (by decide) (by decide)).1⟩

/-- C2: on a set of `N` slots, for a block `b` whose last occurrence in the slot
array is at index `i` (so `N ≥ 1`), `moveToTail(b)` returns, and the new slot
array is the former slots `0..i-1` unchanged, then the former slots `i+1..N-1` in
their order (each one step nearer the head), then `b` at index `N-1`; the array
keeps its length. -/
theorem moveToTail_rotates (s : CacheSet) (b : BlkRef) (i : Nat) (hs : s.WellFormed)
    (hi : s.blks[i]? = some b)
    (hlast : ∀ j, j < s.blks.length → i < j → s.blks[j]? ≠ some b) :
    moveToTail s b = .ok { s with blks := s.blks.take i ++ s.blks.drop (i + 1) ++ [b] } ∧
      rd (s.blks.take i ++ s.blks.drop (i + 1) ++ [b]) (s.assoc - 1) = some b ∧
      (s.blks.take i ++ s.blks.drop (i + 1) ++ [b]).length = s.blks.length := by
  have hsplit := split_at_index s.blks i b hi
  have hlen : (s.blks.take i ++ s.blks.drop (i + 1) ++ [b]).length = s.blks.length := by
    have := congrArg List.length hsplit
    simp only [List.length_append, List.length_cons, List.length_nil] at this ⊢
    omega
  have hlast2 : ∀ j, i < j → s.blks[j]? ≠ some b :=
    fun j hj h => hlast j (List.getElem?_eq_some.1 h).1 hj h
  refine ⟨?_, ?_, hlen⟩
  · exact moveToTail_of_split s b hs _ _ hsplit (not_mem_drop_of_last s.blks i b hlast2)
  · have := rd_last (s.blks.take i ++ s.blks.drop (i + 1)) b [] s.assoc
      (by unfold WellFormed at hs; rw [hs, hlen])
    simpa using this

/-- Witness of C2 on `demoSet`: block 2 sits at index 1, and the call turns
`[1, 2, 3, 4]` into `[1, 3, 4, 2]`. -/
theorem moveToTail_rotates_witness :
    demoSet.WellFormed ∧ demoSet.blks[1]? = some 2 ∧
      (∀ j, j < demoSet.blks.length → 1 < j → demoSet.blks[j]? ≠ some 2) ∧
      moveToTail demoSet 2 = .ok { demoSet with blks := [1, 3, 4, 2] } :=
  ⟨by decide, by decide, by decide,
    (moveToTail_rotates demoSet 2 1 (by decide) (by decide) (by decide)).1⟩

end CacheSet

namespace CacheSet

/-- C3: permutation invariant. On a set whose array has `assoc` slots, every
finite sequence of `moveToHead`/`moveToTail` calls, each made with a block that is
in the slot array at the time of the call, returns, and the multiset of block
references in the slot array after the sequence is the multiset before it; the
array length and `assoc` are unchanged. -/
theorem moves_keep_multiset (s : CacheSet) (ms : List Move) (hs : s.WellFormed)
    (hm : MembersAtCall s ms) :
    ∃ s', runMoves s ms = .ok s' ∧
      (s'.blks : Multiset BlkRef) = (s.blks : Multiset BlkRef) ∧
      s'.blks.length = s.blks.length ∧ s'.assoc = s.assoc := by
  obtain ⟨s', hrun, hperm, _, hassoc, _⟩ := runMoves_of_members ms s hs hm
  exact ⟨s', hrun, Multiset.coe_eq_coe.2 hperm, hperm.length_eq, hassoc⟩

/-- Witness of C3 on `demoSet`, with the calls `moveToHead(3)`, `moveToTail(1)`,
`moveToHead(4)`. -/
theorem moves_keep_multiset_witness :
    demoSet.WellFormed ∧
      MembersAtCall demoSet [Move.toHead 3, Move.toTail 1, Move.toHead 4] ∧
      ∃ s', runMoves demoSet [Move.toHead 3, Move.toTail 1, Move.toHead 4] = .ok s' ∧
        (s'.blks : Multiset BlkRef) = (demoSet.blks : Multiset BlkRef) ∧
        s'.blks.length = demoSet.blks.length ∧ s'.assoc = demoSet.assoc := by
  have h1 : moveToHead demoSet 3 = .ok { demoSet with blks := [3, 1, 2, 4] } :=
    moveToHead_of_split demoSet 3 (by decide) [1, 2] [4] rfl (by decide)
  have h2 : moveToTail { demoSet with blks := [3, 1, 2, 4] } 1
      = .ok { demoSet with blks := [3, 2, 4, 1] } :=
    moveToTail_of_split _ 1 (by decide) [3] [2, 4] rfl (by decide)
  have hm : MembersAtCall demoSet [Move.toHead 3, Move.toTail 1, Move.toHead 4] := by
    refine ⟨by decide, ?_⟩
    simp only [applyMove, h1]
    refine ⟨by decide, ?_⟩
    simp only [applyMove, h2]
    exact ⟨by decide, by cases applyMove _ _ <;> trivial⟩
  exact ⟨by decide, hm, moves_keep_multiset demoSet _ (by decide) hm⟩

/-- C6: on a set of `N ≥ 1` slots, `moveToHead(b)`, and likewise `moveToTail(b)`,
aborts on its bound assertion if and only if `b` occupies no slot. When `b` is
absent the call does not return and touches no slot index outside `0..N-1` (it
ends in the assertion failure, not in an out-of-range access); when `b` is
present the call returns, so the assertion does not fail. -/
theorem move_aborts_iff_not_member (s : CacheSet) (b : BlkRef) (hs : s.WellFormed)
    (hN : 1 ≤ s.assoc) :
    (moveToHead s b = .assertFail ↔ b ∉ s.blks) ∧
      (moveToTail s b = .assertFail ↔ b ∉ s.blks) ∧
      (b ∉ s.blks → ∀ s', moveToHead s b ≠ .ok s' ∧ moveToTail s b ≠ .ok s') ∧
      (b ∈ s.blks → (∃ s', moveToHead s b = .ok s') ∧ ∃ s', moveToTail s b = .ok s') ∧
      moveToHead s b ≠ .outOfBounds ∧ moveToTail s b ≠ .outOfBounds := by
  have hH : b ∉ s.blks → moveToHead s b = .assertFail := moveToHead_of_not_mem s b hs hN
  have hT : b ∉ s.blks → moveToTail s b = .assertFail := moveToTail_of_not_mem s b hs hN
  have hH2 : b ∈ s.blks → ∃ s', moveToHead s b = .ok s' := fun hb => by
    obtain ⟨pre, post, _, _, h⟩ := moveToHead_of_mem s b hs hb
    exact ⟨_, h⟩
  have hT2 : b ∈ s.blks → ∃ s', moveToTail s b = .ok s' := fun hb => by
    obtain ⟨pre, post, _, _, h⟩ := moveToTail_of_mem s b hs hb
    exact ⟨_, h⟩
  refine ⟨⟨?_, hH⟩, ⟨?_, hT⟩, ?_, fun hb => ⟨hH2 hb, hT2 hb⟩, ?_, ?_⟩
  · intro h hb
    obtain ⟨s', h'⟩ := hH2 hb
    rw [h'] at h
    exact Outcome.noConfusion h
  · intro h hb
    obtain ⟨s', h'⟩ := hT2 hb
    rw [h'] at h
    exact Outcome.noConfusion h
  · intro hb s'
    rw [hH hb, hT hb]
    exact ⟨fun h => Outcome.noConfusion h, fun h => Outcome.noConfusion h⟩
  · by_cases hb : b ∈ s.blks
    · obtain ⟨s', h'⟩ := hH2 hb
      rw [h']; exact fun h => Outcome.noConfusion h
    · rw [hH hb]; exact fun h => Outcome.noConfusion h
  · by_cases hb : b ∈ s.blks
    · obtain ⟨s', h'⟩ := hT2 hb
      rw [h']; exact fun h => Outcome.noConfusion h
    · rw [hT hb]; exact fun h => Outcome.noConfusion h

/-- Witness of C6 on `demoSet` with the block 9, which is in no slot: both calls
abort. -/
theorem move_aborts_iff_not_member_witness :
    demoSet.WellFormed ∧ 1 ≤ demoSet.assoc ∧ 9 ∉ demoSet.blks ∧
      moveToHead demoSet 9 = .assertFail ∧ moveToTail demoSet 9 = .assertFail :=
  ⟨by decide, by decide, by decide,
    (move_aborts_iff_not_member demoSet 9 (by decide) (by decide)).1.2 (by decide),
    (move_aborts_iff_not_member demoSet 9 (by decide) (by decide)).2.1.2 (by decide)⟩

end CacheSet

namespace CacheSet

/-- The scan of `demoSet` for tag 42 stops at slot 1, on block 2. -/
theorem findBlk_demo : findBlk demoMem demoSet 42 = .ok (some 2, 1) := by
  have := findBlk_loop_hit demoMem demoSet 42 (by decide) 2 [3, 4] (by decide) [1] [] rfl
    (by decide)
  simpa [findBlk] using this

/-! ## The claims on the lookups -/

/-- C4: tag lookup correctness. On a set whose array has `assoc` slots, for every
tag `t`, `findBlk(t, way_id)` returns; it returns a block iff some slot holds a
block with `tag == t` that is valid; a block it returns is in a slot, has
`tag == t` and is valid; when no slot holds such a block it returns `NULL` and
sets `way_id` to `assoc`. -/
theorem findBlk_correct (mem : BlkRef → CacheBlk) (s : CacheSet) (t : Addr)
    (hs : s.WellFormed) :
    ∃ p w, findBlk mem s t = .ok (p, w) ∧
      (p ≠ none ↔ ∃ x ∈ s.blks, (mem x).tag = t ∧ (mem x).isValid = true) ∧
      (∀ b, p = some b → b ∈ s.blks ∧ (mem b).tag = t ∧ (mem b).isValid = true) ∧
      ((¬ ∃ x ∈ s.blks, (mem x).tag = t ∧ (mem x).isValid = true) →
        p = none ∧ w = s.assoc) := by
  rcases findBlk_cases mem s t hs with ⟨hmiss, hres⟩ | ⟨pre, b, post, hblks, hb, _, hres⟩
  · refine ⟨none, s.assoc, hres, ?_, ?_, ?_⟩
    · constructor
      · intro h; exact absurd rfl h
      · rintro ⟨x, hx, hhit⟩; exact absurd hhit (hmiss x hx)
    · intro b hb; cases hb
    · intro _; exact ⟨rfl, rfl⟩
  · have hbmem : b ∈ s.blks := by rw [hblks]; simp
    refine ⟨some b, (pre.length : Int), hres, ?_, ?_, ?_⟩
    · constructor
      · intro _; exact ⟨b, hbmem, hb⟩
      · intro _ h; cases h
    · intro b' hb'
      cases hb'
      exact ⟨hbmem, hb⟩
    · intro hno; exact absurd ⟨b, hbmem, hb⟩ hno

/-- Witness of C4 on `demoSet` over `demoMem`: the lookup of tag 42 returns
block 2, which is in a slot, is valid and has tag 42. -/
theorem findBlk_correct_witness :
    demoSet.WellFormed ∧ findBlk demoMem demoSet 42 = .ok (some 2, 1) ∧
      2 ∈ demoSet.blks ∧ (demoMem 2).tag = 42 ∧ (demoMem 2).isValid = true := by
  obtain ⟨p, w, hres, _, h, _⟩ := findBlk_correct demoMem demoSet 42 (by decide)
  rw [findBlk_demo] at hres
  cases hres
  exact ⟨by decide, findBlk_demo, h 2 rfl⟩

/-- C5: the way id is the lowest matching index and is never confused with the
sentinel. On a set whose array has `assoc` slots, when `findBlk(t, way_id)`
returns a block then `0 ≤ way_id < assoc`, the block is `blks[way_id]`, and no
slot below `way_id` holds a valid block with tag `t`; `way_id == assoc` holds iff
the result is `NULL`. -/
theorem findBlk_way_id (mem : BlkRef → CacheBlk) (s : CacheSet) (t : Addr)
    (hs : s.WellFormed) :
    ∃ p w, findBlk mem s t = .ok (p, w) ∧
      (∀ b, p = some b →
        0 ≤ w ∧ w < s.assoc ∧ rd s.blks w = some b ∧
          ∀ j x, j < w → rd s.blks j = some x →
            ¬ ((mem x).tag = t ∧ (mem x).isValid = true)) ∧
      (w = s.assoc ↔ p = none) := by
  rcases findBlk_cases mem s t hs with ⟨_, hres⟩ | ⟨pre, b, post, hblks, _, hpre, hres⟩
  · refine ⟨none, s.assoc, hres, ?_, ?_⟩
    · intro b hb; cases hb
    · exact ⟨fun _ => rfl, fun _ => rfl⟩
  · have hlen : s.assoc = ((pre ++ b :: post).length : Int) := by
      unfold WellFormed at hs; rw [hs, hblks]
    have hlt : (pre.length : Int) < s.assoc := by
      rw [hlen]; simp
    refine ⟨some b, (pre.length : Int), hres, ?_, ?_⟩
    · intro b' hb'
      cases hb'
      refine ⟨by omega, hlt, ?_, ?_⟩
      · rw [hblks]; exact rd_length_append pre b post
      · intro j x hj hx
        rw [hblks] at hx
        exact hpre x (mem_of_rd_append_left pre (b :: post) j x hj hx)
    · constructor
      · intro h; omega
      · intro h; cases h

/-- Witness of C5 on `demoSet` over `demoMem`: blocks 2 and 3 are both valid with
tag 42, and the lookup of 42 answers with block 2 at way 1, the lower index. -/
theorem findBlk_way_id_witness :
    demoSet.WellFormed ∧ findBlk demoMem demoSet 42 = .ok (some 2, 1) ∧
      (0 : Int) ≤ 1 ∧ 1 < demoSet.assoc ∧ rd demoSet.blks 1 = some 2 ∧
      ∀ j x, j < 1 → rd demoSet.blks j = some x →
        ¬ ((demoMem x).tag = 42 ∧ (demoMem x).isValid = true) := by
  obtain ⟨p, w, hres, h, _⟩ := findBlk_way_id demoMem demoSet 42 (by decide)
  rw [findBlk_demo] at hres
  cases hres
  exact ⟨by decide, findBlk_demo, h 2 rfl⟩

end CacheSet

namespace CacheSet

/-- C7: combined lookup guard. For every set, key `(r, p, l)` and tag `t`,
`findBlk(r, p, l, t)` returns the block `X` iff `mapLookup(r, p, l)` returns `X`,
`X` is valid and `X.tag == t`; in every other case it returns `NULL`: when the key
is not indexed, when the mapped block is invalid, and when the tag of the mapped
block differs from `t`, the last two although `mapLookup(r, p, l)` returns the
block. -/
theorem findBlk4_guard (mem : BlkRef → CacheBlk) (s : CacheSet) (r p l : Int) (t : Addr) :
    (∀ X, findBlk4 mem s r p l t = some X ↔
        (mapLookup s r p l = some X ∧ (mem X).isValid = true ∧ (mem X).tag = t)) ∧
      (findBlk4 mem s r p l t = none ↔
        ¬ ∃ X, mapLookup s r p l = some X ∧ (mem X).isValid = true ∧ (mem X).tag = t) ∧
      ((∀ v, ((⟨r, p, l⟩ : CamKey), v) ∉ s.lnregMap) → findBlk4 mem s r p l t = none) ∧
      (∀ X, mapLookup s r p l = some X → (mem X).isValid = false →
        findBlk4 mem s r p l t = none) ∧
      (∀ X, mapLookup s r p l = some X → (mem X).tag ≠ t →
        findBlk4 mem s r p l t = none) := by
  have hkey : (∀ v, ((⟨r, p, l⟩ : CamKey), v) ∉ s.lnregMap) → mapLookup s r p l = none := by
    intro h
    unfold mapLookup
    simp only [map_t.find_none h]
  unfold findBlk4
  refine ⟨?_, ?_, ?_, ?_, ?_⟩
  · intro X
    cases hml : mapLookup s r p l with
    | none =>
      constructor
      · intro h; cases h
      · rintro ⟨h, _⟩; cases h
    | some Y =>
      dsimp only
      by_cases hc : (mem Y).isValid = true ∧ (mem Y).tag = t
      · rw [if_pos hc]
        constructor
        · intro h; cases h; exact ⟨rfl, hc⟩
        · rintro ⟨h, _⟩; exact h
      · rw [if_neg hc]
        constructor
        · intro h; cases h
        · rintro ⟨h, hv⟩; cases h; exact absurd hv hc
  · cases hml : mapLookup s r p l with
    | none =>
      constructor
      · rintro _ ⟨X, h, _⟩; cases h
      · intro _; rfl
    | some Y =>
      dsimp only
      by_cases hc : (mem Y).isValid = true ∧ (mem Y).tag = t
      · rw [if_pos hc]
        constructor
        · intro h; cases h
        · intro h; exact absurd ⟨Y, rfl, hc⟩ h
      · rw [if_neg hc]
        constructor
        · rintro _ ⟨X, h, hv⟩; cases h; exact hc hv
        · intro _; rfl
  · intro h
    rw [hkey h]
  · intro X hX hv
    rw [hX]
    simp [hv]
  · intro X hX ht
    rw [hX]
    simp [ht]

/-- Witness of C7 on `demoSet` over `demoMem`: the key `(7, 1, 3)` maps to block 2
(valid, tag 42), the key `(7, 1, 4)` to the invalid block 4, and the key
`(7, 1, 5)` is not indexed. -/
theorem findBlk4_guard_witness :
    findBlk4 demoMem demoSet 7 1 3 42 = some 2 ∧
      (mapLookup demoSet 7 1 3 = some 2 ∧ findBlk4 demoMem demoSet 7 1 3 99 = none) ∧
      (mapLookup demoSet 7 1 4 = some 4 ∧ findBlk4 demoMem demoSet 7 1 4 44 = none) ∧
      findBlk4 demoMem demoSet 7 1 5 42 = none :=
  ⟨((findBlk4_guard demoMem demoSet 7 1 3 42).1 2).2 (by decide),
    ⟨by decide, (findBlk4_guard demoMem demoSet 7 1 3 99).2.2.2.2 2 (by decide) (by decide)⟩,
    ⟨by decide, (findBlk4_guard demoMem demoSet 7 1 4 44).2.2.2.1 4 (by decide) (by decide)⟩,
    (findBlk4_guard demoMem demoSet 7 1 5 42).2.2.1 (by
      intro v hv
      simp [demoSet] at hv)⟩

/-- C9: for every content of the index and every triple `(r, p, l)`,
`inMap(r, p, l)` is true iff `mapLookup(r, p, l)` returns a non-null block, and
false iff it returns `NULL`. -/
theorem inMap_iff_mapLookup (s : CacheSet) (r p l : Int) :
    (inMap s r p l = true ↔ mapLookup s r p l ≠ none) ∧
      (inMap s r p l = false ↔ mapLookup s r p l = none) := by
  unfold inMap
  cases mapLookup s r p l <;> simp

/-- C10: `CamKey::operator<` is the strict lexicographic order on
`(rmtid, P_bit, lnreg)`: it holds exactly when the first differing field is
smaller, it agrees with the lexicographic order of the triples, it is
irreflexive and transitive, for two keys exactly one of `a < b`, `b < a` and
equality of the keys holds, and two keys are equivalent under the comparator iff
their three fields are equal. -/
theorem CamKey.lt_strict_lexicographic (a b c : CamKey) :
    (a.lt b = true ↔
        a.rmtid < b.rmtid ∨
          (a.rmtid = b.rmtid ∧
            (a.P_bit < b.P_bit ∨ (a.P_bit = b.P_bit ∧ a.lnreg < b.lnreg)))) ∧
      (a.lt b = true ↔ CamKey.lexLt a b) ∧
      a.lt a = false ∧
      (a.lt b = true → b.lt c = true → a.lt c = true) ∧
      ((a.lt b = true ∧ b.lt a = false ∧ a ≠ b) ∨
        (a.lt b = false ∧ b.lt a = true ∧ a ≠ b) ∨
        (a.lt b = false ∧ b.lt a = false ∧ a = b)) ∧
      ((a.lt b = false ∧ b.lt a = false) ↔
        (a.rmtid = b.rmtid ∧ a.P_bit = b.P_bit ∧ a.lnreg = b.lnreg)) := by
  refine ⟨CamKey.lt_iff a b, CamKey.lt_iff_lexLt a b, CamKey.lt_irrefl a,
    CamKey.lt_trans, ?_, ?_⟩
  · cases hab : a.lt b with
    | true =>
      left
      refine ⟨rfl, CamKey.lt_asymm hab, ?_⟩
      rintro rfl
      rw [CamKey.lt_irrefl] at hab
      cases hab
    | false =>
      right
      cases hba : b.lt a with
      | true =>
        left
        refine ⟨rfl, rfl, ?_⟩
        rintro rfl
        rw [CamKey.lt_irrefl] at hba
        cases hba
      | false =>
        right
        exact ⟨rfl, rfl, CamKey.eq_of_not_lt hab hba⟩
  · constructor
    · rintro ⟨hab, hba⟩
      have := CamKey.eq_of_not_lt hab hba
      subst this
      exact ⟨rfl, rfl, rfl⟩
    · rintro ⟨h1, h2, h3⟩
      have := CamKey.ext_fields h1 h2 h3
      subst this
      exact ⟨CamKey.lt_irrefl a, CamKey.lt_irrefl a⟩

/-- Witness of C10: `(1, 2, 3) < (1, 2, 4) < (1, 3, 0)`, and so
`(1, 2, 3) < (1, 3, 0)`. -/
theorem CamKey.lt_strict_lexicographic_witness :
    CamKey.lt ⟨1, 2, 3⟩ ⟨1, 2, 4⟩ = true ∧ CamKey.lt ⟨1, 2, 4⟩ ⟨1, 3, 0⟩ = true ∧
      CamKey.lt ⟨1, 2, 3⟩ ⟨1, 3, 0⟩ = true :=
  ⟨by decide, by decide,
    (CamKey.lt_strict_lexicographic ⟨1, 2, 3⟩ ⟨1, 2, 4⟩ ⟨1, 3, 0⟩).2.2.2.1
      (by decide) (by decide)⟩

end CacheSet

namespace CacheSet

/-- C8, as the claim states it, fails on `demoSet`: the index holds an entry
under exactly the key `(8, 0, 0)`, that entry maps to `NULL`, and
`mapLookup(8, 0, 0)` returns `NULL`, not a block. -/
theorem mapLookup_null_entry :
    demoSet.lnregMap.Ordered ∧
      (∃ v, ((⟨8, 0, 0⟩ : CamKey), v) ∈ demoSet.lnregMap) ∧
      mapLookup demoSet 8 0 0 = none ∧
      ¬ (mapLookup demoSet 8 0 0 ≠ none ↔
          ∃ v, ((⟨8, 0, 0⟩ : CamKey), v) ∈ demoSet.lnregMap) :=
  ⟨by decide, ⟨none, by decide⟩, by decide,
    fun h => absurd (h.2 ⟨none, by decide⟩) (by decide)⟩

/-- C8, amended: for every content of the index (its entries in strictly
ascending key order) and every triple `(r, p, l)`, `mapLookup(r, p, l)` returns
the block `X` iff the entry under exactly the key `(r, p, l)` is present and maps
to `X`; when an entry under that key is present the result is what the entry maps
to, `NULL` included; with no entry under that key the result is `NULL`; and the
lookup never produces an entry whose key differs from `(r, p, l)` in one of the
three fields. -/
theorem mapLookup_exact (s : CacheSet) (r p l : Int) (hm : s.lnregMap.Ordered) :
    (∀ X : BlkRef,
        mapLookup s r p l = some X ↔ ((⟨r, p, l⟩ : CamKey), some X) ∈ s.lnregMap) ∧
      (∀ v : BlkPtr, ((⟨r, p, l⟩ : CamKey), v) ∈ s.lnregMap → mapLookup s r p l = v) ∧
      ((∀ v : BlkPtr, ((⟨r, p, l⟩ : CamKey), v) ∉ s.lnregMap) → mapLookup s r p l = none) ∧
      (∀ (k : CamKey) (v : BlkPtr), (k, v) ∈ s.lnregMap →
        (k.rmtid ≠ r ∨ k.P_bit ≠ p ∨ k.lnreg ≠ l) →
        s.lnregMap.find ⟨r, p, l⟩ ≠ some (k, v)) := by
  have hmem : ∀ v : BlkPtr, ((⟨r, p, l⟩ : CamKey), v) ∈ s.lnregMap → mapLookup s r p l = v := by
    intro v hv
    unfold mapLookup
    simp only [map_t.find_of_mem hm hv]
  refine ⟨?_, hmem, ?_, ?_⟩
  · intro X
    constructor
    · intro h
      unfold mapLookup at h
      cases hf : s.lnregMap.find ⟨r, p, l⟩ with
      | none => simp only [hf] at h; cases h
      | some e =>
        simp only [hf] at h
        obtain ⟨he, hk⟩ := map_t.find_some hf
        have : e = (⟨r, p, l⟩, some X) := Prod.ext hk h
        rw [← this]
        exact he
    · exact hmem (some X)
  · intro h
    unfold mapLookup
    simp only [map_t.find_none h]
  · intro k v _ hne hf
    have hk := (map_t.find_some hf).2
    simp only at hk
    subst hk
    simp at hne

/-- Witness of C8, amended, on `demoSet`: the entry under `(7, 1, 3)` maps to
block 2, the entry under `(8, 0, 0)` maps to `NULL`, nothing is indexed under
`(7, 1, 5)`, and the lookup of `(7, 1, 3)` does not produce the entry under
`(7, 1, 4)`. -/
theorem mapLookup_exact_witness :
    demoSet.lnregMap.Ordered ∧ mapLookup demoSet 7 1 3 = some 2 ∧
      mapLookup demoSet 8 0 0 = none ∧ mapLookup demoSet 7 1 5 = none ∧
      demoSet.lnregMap.find ⟨7, 1, 3⟩ ≠ some (⟨7, 1, 4⟩, some 4) :=
  ⟨by decide,
    ((mapLookup_exact demoSet 7 1 3 (by decide)).1 2).2 (by decide),
    (mapLookup_exact demoSet 8 0 0 (by decide)).2.1 none (by decide),
    (mapLookup_exact demoSet 7 1 5 (by decide)).2.2.1 (by
      intro v hv
      simp [demoSet] at hv),
    (mapLookup_exact demoSet 7 1 3 (by decide)).2.2.2 ⟨7, 1, 4⟩ (some 4) (by decide)
      (by decide)⟩

end CacheSet

namespace CacheSet

/-! ## The operations with their write logs -/

theorem dropLog_moveToHeadLog (s : CacheSet) (blk : BlkRef) :
    dropLog (moveToHeadLog s blk) = moveToHead s blk := by
  unfold moveToHeadLog moveToHead
  cases rd s.blks 0 with
  | none => rfl
  | some b0 =>
    dsimp only
    split_ifs
    · rfl
    · cases moveToHead.loop s.assoc blk s.blks 0 blk [] <;> rfl

theorem dropLog_moveToTailLog (s : CacheSet) (blk : BlkRef) :
    dropLog (moveToTailLog s blk) = moveToTail s blk := by
  unfold moveToTailLog moveToTail
  cases rd s.blks (s.assoc - 1) with
  | none => rfl
  | some bN =>
    dsimp only
    split_ifs
    · rfl
    · cases moveToTail.loop blk s.blks (s.assoc - 1) blk [] <;> rfl

/-- The early return of `moveToHead`: the loop is not entered. -/
theorem moveToHeadLog_at_head (s : CacheSet) (blk : BlkRef) (h : rd s.blks 0 = some blk) :
    moveToHeadLog s blk = .ok (s, []) := by
  unfold moveToHeadLog
  rw [h]
  simp

/-- The early return of `moveToTail`: the loop is not entered. -/
theorem moveToTailLog_at_tail (s : CacheSet) (blk : BlkRef)
    (h : rd s.blks (s.assoc - 1) = some blk) :
    moveToTailLog s blk = .ok (s, []) := by
  unfold moveToTailLog
  rw [h]
  simp

theorem moveToHeadLog_of_split (s : CacheSet) (blk : BlkRef) (hs : s.WellFormed)
    (pre post : List BlkRef) (hblks : s.blks = pre ++ blk :: post) (hpre : blk ∉ pre)
    (hne : pre ≠ []) :
    moveToHeadLog s blk =
      .ok ({ s with blks := blk :: (pre ++ post) }, idxFrom 0 (pre.length + 1)) := by
  unfold WellFormed at hs
  cases pre with
  | nil => exact absurd rfl hne
  | cons p pre =>
    have hp : p ≠ blk := fun h => hpre (by simp [h])
    have hloop := moveToHead_loop_present s.assoc blk post (p :: pre) [] blk []
      (by rw [hs, hblks]; simp) hpre
    unfold moveToHeadLog
    simp only [List.nil_append, List.length_nil, Nat.cast_zero] at hloop
    rw [hblks]
    simp only [List.cons_append, rd_zero_cons, if_neg hp]
    simp only [List.cons_append] at hloop
    rw [hloop]

theorem moveToTailLog_of_split (s : CacheSet) (blk : BlkRef) (hs : s.WellFormed)
    (pre post : List BlkRef) (hblks : s.blks = pre ++ blk :: post) (hpost : blk ∉ post)
    (hne : post ≠ []) :
    moveToTailLog s blk =
      .ok ({ s with blks := pre ++ post ++ [blk] },
        (idxFrom pre.length (post.length + 1)).reverse) := by
  unfold WellFormed at hs
  rcases List.eq_nil_or_concat post with hnil | ⟨post1, q, hpq⟩
  · exact absurd hnil hne
  · rw [List.concat_eq_append] at hpq
    subst hpq
    have hq : q ≠ blk := fun h => hpost (by simp [h])
    have harr : pre ++ blk :: (post1 ++ [q]) = (pre ++ blk :: post1) ++ q :: [] := by simp
    have hrd := rd_last (pre ++ blk :: post1) q [] s.assoc (by rw [hs, hblks, harr])
    simp only [List.length_nil, Nat.cast_zero, sub_zero] at hrd
    have hidx : s.assoc - 1 = ((pre.length + (post1 ++ [q]).length : Nat) : Int) := by
      rw [hs, hblks]; simp; omega
    have hloop := moveToTail_loop_present blk pre (post1 ++ [q]) [] blk [] hpost
    simp only [List.append_nil] at hloop
    unfold moveToTailLog
    rw [hblks, harr, hrd]
    simp only [if_neg hq]
    rw [← harr, hidx, hloop]
    simp

theorem mem_idxFrom (d n : Nat) (k : Int) :
    k ∈ idxFrom d n ↔ (d : Int) ≤ k ∧ k < ((d + n : Nat) : Int) := by
  unfold idxFrom
  simp only [List.mem_map, List.mem_range]
  constructor
  · rintro ⟨j, hj, rfl⟩
    constructor
    · push_cast; omega
    · push_cast; omega
  · rintro ⟨h1, h2⟩
    refine ⟨(k - d).toNat, ?_, ?_⟩
    · push_cast at h2; omega
    · push_cast; omega

theorem length_idxFrom (d n : Nat) : (idxFrom d n).length = n := by
  simp [idxFrom]

end CacheSet

namespace CacheSet

/-! ## Idempotence and cost -/

/-- C11: idempotence. On a set of `N ≥ 1` slots, `moveToHead(b)` called when
`blks[0] == b`, and `moveToTail(b)` called when `blks[assoc - 1] == b`, returns
the set as it was, the whole slot array included, and writes no slot: the log of
written indices is empty. -/
theorem move_idempotent (s : CacheSet) (b : BlkRef) :
    (rd s.blks 0 = some b →
        moveToHead s b = .ok s ∧ moveToHeadLog s b = .ok (s, [])) ∧
      (rd s.blks (s.assoc - 1) = some b →
        moveToTail s b = .ok s ∧ moveToTailLog s b = .ok (s, [])) := by
  constructor
  · intro h
    have hlog := moveToHeadLog_at_head s b h
    refine ⟨?_, hlog⟩
    rw [← dropLog_moveToHeadLog, hlog]
    rfl
  · intro h
    have hlog := moveToTailLog_at_tail s b h
    refine ⟨?_, hlog⟩
    rw [← dropLog_moveToTailLog, hlog]
    rfl

/-- Witness of C11 on `demoSet`: block 1 is the head and block 4 is the tail. -/
theorem move_idempotent_witness :
    rd demoSet.blks 0 = some 1 ∧ moveToHead demoSet 1 = .ok demoSet ∧
      rd demoSet.blks (demoSet.assoc - 1) = some 4 ∧ moveToTail demoSet 4 = .ok demoSet :=
  ⟨by decide, ((move_idempotent demoSet 1).1 (by decide)).1,
    by decide, ((move_idempotent demoSet 4).2 (by decide)).1⟩

end CacheSet

namespace CacheSet

/-- The cost of the swap chains in terms of occurrences: for a block `b` whose
first occurrence is at index `i` with `i ≥ 1`, the loop of `moveToHead(b)` makes
`i + 1` iterations, writing the indices `0, 1, .., i` in this order; for a block
`b` whose last occurrence is at index `i` with `i ≤ N - 2`, the loop of
`moveToTail(b)` makes `N - i` iterations, writing the indices `N - 1` down to
`i`. The log has one entry per iteration. -/
theorem swap_chain_at_occurrence (s : CacheSet) (b : BlkRef) (i : Nat)
    (hs : s.WellFormed) (hi : s.blks[i]? = some b) :
    ((∀ j, j < i → s.blks[j]? ≠ some b) → 1 ≤ i →
        moveToHeadLog s b =
          .ok ({ s with blks := [b] ++ s.blks.take i ++ s.blks.drop (i + 1) },
            idxFrom 0 (i + 1)) ∧
        (idxFrom 0 (i + 1)).length = i + 1 ∧
        ∀ k : Int, k ∈ idxFrom 0 (i + 1) ↔ 0 ≤ k ∧ k ≤ (i : Int)) ∧
      ((∀ j, j < s.blks.length → i < j → s.blks[j]? ≠ some b) → i + 2 ≤ s.blks.length →
        moveToTailLog s b =
          .ok ({ s with blks := s.blks.take i ++ s.blks.drop (i + 1) ++ [b] },
            (idxFrom i (s.blks.length - i)).reverse) ∧
        ((idxFrom i (s.blks.length - i)).reverse).length = s.blks.length - i ∧
        ∀ k : Int, k ∈ (idxFrom i (s.blks.length - i)).reverse ↔
          (i : Int) ≤ k ∧ k ≤ s.assoc - 1) := by
  have hsplit := split_at_index s.blks i b hi
  have hlt : i < s.blks.length := (List.getElem?_eq_some.1 hi).1
  have htake : (s.blks.take i).length = i := by
    rw [List.length_take]; omega
  have hdrop : (s.blks.drop (i + 1)).length = s.blks.length - (i + 1) := List.length_drop _ _
  constructor
  · intro hfirst h1
    have hne : s.blks.take i ≠ [] := by
      intro h
      rw [h] at htake
      simp at htake
      omega
    have := moveToHeadLog_of_split s b hs _ _ hsplit (not_mem_take_of_first s.blks i b hfirst) hne
    rw [htake] at this
    refine ⟨by simpa using this, length_idxFrom _ _, ?_⟩
    intro k
    rw [mem_idxFrom]
    push_cast
    omega
  · intro hlast h2
    have hlast2 : ∀ j, i < j → s.blks[j]? ≠ some b :=
      fun j hj h => hlast j (List.getElem?_eq_some.1 h).1 hj h
    have hne : s.blks.drop (i + 1) ≠ [] := by
      intro h
      rw [h] at hdrop
      simp at hdrop
      omega
    have := moveToTailLog_of_split s b hs _ _ hsplit (not_mem_drop_of_last s.blks i b hlast2) hne
    rw [htake, hdrop, show s.blks.length - (i + 1) + 1 = s.blks.length - i by omega] at this
    refine ⟨this, by rw [List.length_reverse, length_idxFrom], ?_⟩
    intro k
    rw [List.mem_reverse, mem_idxFrom]
    unfold WellFormed at hs
    rw [hs]
    push_cast
    omega

/-- C16: swap-chain cost. On a set of `N` slots holding pairwise distinct
references, as the data model has it, for every block `b` located at index `i`
with `i ≥ 1`, the do-while loop of `moveToHead(b)` terminates after exactly
`i + 1` iterations, performing exactly `i + 1` slot writes, to the indices
`0..i` and no others; and for `b` located at index `i ≤ N - 2`, the loop of
`moveToTail(b)` terminates after exactly `N - i` iterations, writing the indices
`i..N-1` and no others. The log has one entry per iteration, the index written
in it. -/
theorem swap_chain_cost (s : CacheSet) (b : BlkRef) (i : Nat) (hs : s.WellFormed)
    (hd : s.blks.Nodup) (hi : s.blks[i]? = some b) :
    (1 ≤ i →
        moveToHeadLog s b =
          .ok ({ s with blks := [b] ++ s.blks.take i ++ s.blks.drop (i + 1) },
            idxFrom 0 (i + 1)) ∧
        (idxFrom 0 (i + 1)).length = i + 1 ∧
        ∀ k : Int, k ∈ idxFrom 0 (i + 1) ↔ 0 ≤ k ∧ k ≤ (i : Int)) ∧
      (i + 2 ≤ s.blks.length →
        moveToTailLog s b =
          .ok ({ s with blks := s.blks.take i ++ s.blks.drop (i + 1) ++ [b] },
            (idxFrom i (s.blks.length - i)).reverse) ∧
        ((idxFrom i (s.blks.length - i)).reverse).length = s.blks.length - i ∧
        ∀ k : Int, k ∈ (idxFrom i (s.blks.length - i)).reverse ↔
          (i : Int) ≤ k ∧ k ≤ s.assoc - 1) := by
  have hne : ∀ j, j ≠ i → s.blks[j]? ≠ some b := by
    intro j hj h
    exact hj (List.getElem?_inj (List.getElem?_eq_some.1 h).1 hd (h.trans hi.symm))
  have h := swap_chain_at_occurrence s b i hs hi
  exact ⟨fun h1 => h.1 (fun j hj => hne j (by omega)) h1,
    fun h2 => h.2 (fun j _ hj => hne j (by omega)) h2⟩

/-- Witness of C16 on `demoSet`, whose four references are distinct: block 3 is
at index 2, so `moveToHead(3)` makes 3 iterations, writing the indices 0, 1, 2,
and `moveToTail(3)` makes 2 iterations, writing the indices 3, 2. -/
theorem swap_chain_cost_witness :
    demoSet.WellFormed ∧ demoSet.blks.Nodup ∧ demoSet.blks[2]? = some 3 ∧
      moveToHeadLog demoSet 3 = .ok ({ demoSet with blks := [3, 1, 2, 4] }, [0, 1, 2]) ∧
      moveToTailLog demoSet 3 = .ok ({ demoSet with blks := [1, 2, 4, 3] }, [3, 2]) :=
  ⟨by decide, by decide, by decide,
    ((swap_chain_cost demoSet 3 2 (by decide) (by decide) (by decide)).1 (by decide)).1,
    ((swap_chain_cost demoSet 3 2 (by decide) (by decide) (by decide)).2 (by decide)).1⟩

end CacheSet

namespace CacheSet

/-! ## Frame, worked examples, mirror image -/

/-- C12: frame of reordering. On a set whose array has `assoc` slots and for a
member block `b`, `moveToHead(b)` and `moveToTail(b)` return a set that differs
from the old one in the arrangement of the slot array alone: the new array is a
permutation of the old one, `assoc` and `lnregMap` are unchanged, and, the block
store being no part of what the operations take or give back (the source assigns
to `blks[i]` only), no tag and no validity is changed; so `mapLookup`, `inMap`
and the 4-argument `findBlk`, over any store, answer after the call as before. -/
theorem move_frame (s : CacheSet) (b : BlkRef) (hs : s.WellFormed) (hb : b ∈ s.blks) :
    ∃ sH sT, moveToHead s b = .ok sH ∧ moveToTail s b = .ok sT ∧
      (sH.assoc = s.assoc ∧ sH.lnregMap = s.lnregMap ∧ sH.blks.Perm s.blks) ∧
      (sT.assoc = s.assoc ∧ sT.lnregMap = s.lnregMap ∧ sT.blks.Perm s.blks) ∧
      (∀ r p l, mapLookup sH r p l = mapLookup s r p l ∧ inMap sH r p l = inMap s r p l ∧
        ∀ mem t, findBlk4 mem sH r p l t = findBlk4 mem s r p l t) ∧
      (∀ r p l, mapLookup sT r p l = mapLookup s r p l ∧ inMap sT r p l = inMap s r p l ∧
        ∀ mem t, findBlk4 mem sT r p l t = findBlk4 mem s r p l t) := by
  obtain ⟨sH, hH, hpH, _, haH, hmH⟩ := applyMove_of_mem s (Move.toHead b) hs hb
  obtain ⟨sT, hT, hpT, _, haT, hmT⟩ := applyMove_of_mem s (Move.toTail b) hs hb
  have key : ∀ s1 : CacheSet, s1.lnregMap = s.lnregMap →
      ∀ r p l, mapLookup s1 r p l = mapLookup s r p l ∧ inMap s1 r p l = inMap s r p l ∧
        ∀ mem t, findBlk4 mem s1 r p l t = findBlk4 mem s r p l t := by
    intro s1 h1 r p l
    have hml : mapLookup s1 r p l = mapLookup s r p l := by
      unfold mapLookup; rw [h1]
    refine ⟨hml, ?_, ?_⟩
    · unfold inMap; rw [hml]
    · intro mem t; unfold findBlk4; rw [hml]
  exact ⟨sH, sT, hH, hT, ⟨haH, hmH, hpH⟩, ⟨haT, hmT, hpT⟩, key sH hmH, key sT hmT⟩

/-- Witness of C12 on `demoSet` with the member block 3. -/
theorem move_frame_witness :
    demoSet.WellFormed ∧ 3 ∈ demoSet.blks ∧
      ∃ sH sT, moveToHead demoSet 3 = .ok sH ∧ moveToTail demoSet 3 = .ok sT ∧
        (sH.assoc = demoSet.assoc ∧ sH.lnregMap = demoSet.lnregMap ∧
          sH.blks.Perm demoSet.blks) ∧
        (sT.assoc = demoSet.assoc ∧ sT.lnregMap = demoSet.lnregMap ∧
          sT.blks.Perm demoSet.blks) ∧
        (∀ r p l, mapLookup sH r p l = mapLookup demoSet r p l ∧
          inMap sH r p l = inMap demoSet r p l ∧
          ∀ mem t, findBlk4 mem sH r p l t = findBlk4 mem demoSet r p l t) ∧
        (∀ r p l, mapLookup sT r p l = mapLookup demoSet r p l ∧
          inMap sT r p l = inMap demoSet r p l ∧
          ∀ mem t, findBlk4 mem sT r p l t = findBlk4 mem demoSet r p l t) :=
  ⟨by decide, by decide, move_frame demoSet 3 (by decide) (by decide)⟩

/-- C13: worked example with `N = 4`. From the slots `[A, B, C, D]`, four distinct
valid blocks of distinct tags, `moveToHead(C)` gives `[C, A, B, D]`, then
`moveToTail(A)` gives `[C, B, D, A]`, and then `findBlk(A.tag, way_id)` returns
`A` with `way_id == 3`. -/
theorem worked_example_reorder (mem : BlkRef → CacheBlk) (s : CacheSet) (A B C D : BlkRef)
    (hassoc : s.assoc = 4) (hblks : s.blks = [A, B, C, D]) (hd : [A, B, C, D].Nodup)
    (hv : ∀ x ∈ [A, B, C, D], (mem x).isValid = true)
    (ht : [(mem A).tag, (mem B).tag, (mem C).tag, (mem D).tag].Nodup) :
    moveToHead s C = .ok { s with blks := [C, A, B, D] } ∧
      moveToTail { s with blks := [C, A, B, D] } A = .ok { s with blks := [C, B, D, A] } ∧
      findBlk mem { s with blks := [C, B, D, A] } (mem A).tag = .ok (some A, 3) := by
  simp only [List.nodup_cons, List.mem_cons, List.mem_singleton, not_or, List.not_mem_nil,
    not_false_eq_true, List.nodup_nil, and_true] at hd ht
  obtain ⟨⟨hAB, hAC, hAD⟩, ⟨hBC, hBD⟩, hCD⟩ := hd
  obtain ⟨⟨tAB, tAC, tAD⟩, _, _⟩ := ht
  have hs : s.WellFormed := by unfold WellFormed; rw [hassoc, hblks]; rfl
  refine ⟨?_, ?_, ?_⟩
  · have := moveToHead_of_split s C hs [A, B] [D] hblks
      (by simp only [List.mem_cons, List.mem_singleton, List.not_mem_nil, or_false, not_or]
          exact ⟨Ne.symm hAC, Ne.symm hBC⟩)
    simpa using this
  · have := moveToTail_of_split { s with blks := [C, A, B, D] } A
      (by unfold WellFormed; rw [hassoc]; rfl) [C] [B, D] rfl
      (by simp only [List.mem_cons, List.mem_singleton, List.not_mem_nil, or_false, not_or]
          exact ⟨hAB, hAD⟩)
    simpa using this
  · have hit : Hit mem (mem A).tag A := ⟨rfl, hv A (by simp)⟩
    have := findBlk_loop_hit mem { s with blks := [C, B, D, A] } (mem A).tag
      (by unfold WellFormed; rw [hassoc]; rfl) A [] hit [C, B, D] [] rfl
      (by
        intro x hx h
        simp only [List.mem_cons, List.mem_singleton, List.not_mem_nil, or_false] at hx
        rcases hx with rfl | rfl | rfl
        · exact tAC h.1.symm
        · exact tAB h.1.symm
        · exact tAD h.1.symm)
    simpa [findBlk] using this

/-- Witness of C13 on `demoSet` over `tagMem`, with the blocks 1, 2, 3, 4. -/
theorem worked_example_reorder_witness :
    moveToHead demoSet 3 = .ok { demoSet with blks := [3, 1, 2, 4] } ∧
      moveToTail { demoSet with blks := [3, 1, 2, 4] } 1
        = .ok { demoSet with blks := [3, 2, 4, 1] } ∧
      findBlk tagMem { demoSet with blks := [3, 2, 4, 1] } (tagMem 1).tag
        = .ok (some 1, 3) :=
  worked_example_reorder tagMem demoSet 1 2 3 4 rfl rfl (by decide) (by decide) (by decide)

end CacheSet

namespace CacheSet

/-- C14: worked example with the composite key. With the key `(7, 1, 3)` indexed
to the block `X`, where `X.tag = 42` and `X` is valid, `findBlk(7, 1, 3, 42)`
returns `X` and `findBlk(7, 1, 3, 99)` returns `NULL`; and in any later store in
which `X` is invalid, the index being untouched, `findBlk(7, 1, 3, 42)` returns
`NULL` while `mapLookup(7, 1, 3)` still returns `X`. -/
theorem worked_example_composite (mem later : BlkRef → CacheBlk) (s : CacheSet) (X : BlkRef)
    (hm : s.lnregMap.Ordered) (hk : ((⟨7, 1, 3⟩ : CamKey), some X) ∈ s.lnregMap)
    (htag : (mem X).tag = 42) (hv : (mem X).isValid = true)
    (hlater : (later X).isValid = false) :
    findBlk4 mem s 7 1 3 42 = some X ∧ findBlk4 mem s 7 1 3 99 = none ∧
      findBlk4 later s 7 1 3 42 = none ∧ mapLookup s 7 1 3 = some X := by
  have hml : mapLookup s 7 1 3 = some X := by
    unfold mapLookup
    simp only [map_t.find_of_mem hm hk]
  refine ⟨?_, ?_, ?_, hml⟩
  · unfold findBlk4
    rw [hml]
    simp [hv, htag]
  · unfold findBlk4
    rw [hml]
    simp [htag]
  · unfold findBlk4
    rw [hml]
    simp [hlater]

/-- Witness of C14 on `demoSet`, whose index maps `(7, 1, 3)` to block 2, which
`demoMem` holds valid with tag 42; the later store is `demoMem` with block 2 made
invalid. -/
theorem worked_example_composite_witness :
    findBlk4 demoMem demoSet 7 1 3 42 = some 2 ∧ findBlk4 demoMem demoSet 7 1 3 99 = none ∧
      findBlk4 (fun a => if a = 2 then ⟨42, false⟩ else demoMem a) demoSet 7 1 3 42 = none ∧
      mapLookup demoSet 7 1 3 = some 2 :=
  worked_example_composite demoMem (fun a => if a = 2 then ⟨42, false⟩ else demoMem a)
    demoSet 2 (by decide) (by decide) (by decide) (by decide) (by decide)

/-- C15: `moveToTail` is the mirror image of `moveToHead`. On a slot array of
length `N ≥ 1` and for a block `b` in it, both calls return, and the slot array
that `moveToTail(b)` produces is the reverse of the one that `moveToHead(b)`
produces on the reversed array. -/
theorem moveToTail_mirror (s : CacheSet) (b : BlkRef) (hs : s.WellFormed)
    (hb : b ∈ s.blks) :
    ∃ sT sH, moveToTail s b = .ok sT ∧
      moveToHead { s with blks := s.blks.reverse } b = .ok sH ∧
      sT.blks = sH.blks.reverse := by
  obtain ⟨pre, post, hblks, hpost, hT⟩ := moveToTail_of_mem s b hs hb
  have hrev : s.blks.reverse = post.reverse ++ b :: pre.reverse := by
    rw [hblks]; simp
  have hH := moveToHead_of_split { s with blks := s.blks.reverse } b
    (by unfold WellFormed at hs ⊢; simp [hs]) post.reverse pre.reverse hrev
    (by simpa using hpost)
  exact ⟨_, _, hT, hH, by simp⟩

/-- Witness of C15 on `demoSet` with block 2: `moveToTail` gives `[1, 3, 4, 2]`,
and `moveToHead` on `[4, 3, 2, 1]` gives `[2, 4, 3, 1]`, its reverse. -/
theorem moveToTail_mirror_witness :
    demoSet.WellFormed ∧ 2 ∈ demoSet.blks ∧
      ∃ sT sH, moveToTail demoSet 2 = .ok sT ∧
        moveToHead { demoSet with blks := demoSet.blks.reverse } 2 = .ok sH ∧
        sT.blks = sH.blks.reverse :=
  ⟨by decide, by decide, moveToTail_mirror demoSet 2 (by decide) (by decide)⟩

end CacheSet

namespace CacheSet

/-! ## Lookups and reordering together -/

/-- Over two arrangements of the same slots with unique tags, the tag scan returns
the same pointer, and on a hit each way id is an index of the block found. -/
theorem findBlk_perm (mem : BlkRef → CacheBlk) (s s1 : CacheSet) (t : Addr)
    (hs : s.WellFormed) (hs1 : s1.WellFormed) (hp : s1.blks.Perm s.blks)
    (hu : UniqueTags mem s) :
    ∃ p w w1, findBlk mem s t = .ok (p, w) ∧ findBlk mem s1 t = .ok (p, w1) ∧
      (∀ X, p = some X → rd s.blks w = some X ∧ rd s1.blks w1 = some X) ∧
      (p = none → w = s.assoc ∧ w1 = s1.assoc) := by
  rcases findBlk_cases mem s t hs with ⟨hmiss, hres⟩ | ⟨pre, b, post, hblks, hb, _, hres⟩
  · rcases findBlk_cases mem s1 t hs1 with ⟨_, hres1⟩ | ⟨pre1, b1, post1, hblks1, hb1, _, _⟩
    · exact ⟨none, _, _, hres, hres1, fun X h => (by cases h), fun _ => ⟨rfl, rfl⟩⟩
    · have : b1 ∈ s.blks := hp.subset (by rw [hblks1]; simp)
      exact absurd hb1 (hmiss b1 this)
  · have hbmem : b ∈ s.blks := by rw [hblks]; simp
    rcases findBlk_cases mem s1 t hs1 with ⟨hmiss1, _⟩ | ⟨pre1, b1, post1, hblks1, hb1, _, hres1⟩
    · exact absurd hb (hmiss1 b (hp.symm.subset hbmem))
    · have hb1mem : b1 ∈ s.blks := hp.subset (by rw [hblks1]; simp)
      have heq : b1 = b := hu b1 hb1mem b hbmem hb1.2 hb.2 (hb1.1.trans hb.1.symm)
      subst heq
      refine ⟨some b1, _, _, hres, hres1, ?_, fun h => (by cases h)⟩
      intro X hX
      cases hX
      exact ⟨by rw [hblks]; exact rd_length_append pre b1 post,
        by rw [hblks1]; exact rd_length_append pre1 b1 post1⟩

theorem findBlk1_of_findBlk (mem : BlkRef → CacheBlk) (s : CacheSet) (t : Addr)
    (p : BlkPtr) (w : Int) (h : findBlk mem s t = .ok (p, w)) :
    findBlk1 mem s t = .ok p := by
  unfold findBlk1
  rw [h]

/-- C17: tag lookup is stable under reordering. On a set whose array has `assoc`
slots and in which at most one valid block carries any given tag, for every
member block `b` and every tag `t`, `findBlk(t)` returns the same pointer before
and after `moveToHead(b)`, and before and after `moveToTail(b)`, `NULL` staying
`NULL`; and when a block is returned after the move, the returned `way_id` is an
index at which that block sits in the new slot array. -/
theorem findBlk_stable (mem : BlkRef → CacheBlk) (s : CacheSet) (b : BlkRef) (t : Addr)
    (hs : s.WellFormed) (hu : UniqueTags mem s) (hb : b ∈ s.blks) :
    ∃ sH sT p w wH wT, moveToHead s b = .ok sH ∧ moveToTail s b = .ok sT ∧
      findBlk mem s t = .ok (p, w) ∧ findBlk mem sH t = .ok (p, wH) ∧
      findBlk mem sT t = .ok (p, wT) ∧
      findBlk1 mem sH t = findBlk1 mem s t ∧ findBlk1 mem sT t = findBlk1 mem s t ∧
      (∀ X, p = some X → rd sH.blks wH = some X ∧ rd sT.blks wT = some X) ∧
      (p = none → wH = sH.assoc ∧ wT = sT.assoc) := by
  obtain ⟨sH, hH, hpH, hwH, _, _⟩ := applyMove_of_mem s (Move.toHead b) hs hb
  obtain ⟨sT, hT, hpT, hwT, _, _⟩ := applyMove_of_mem s (Move.toTail b) hs hb
  obtain ⟨p, w, wH, hf, hfH, hiH, hnH⟩ := findBlk_perm mem s sH t hs hwH hpH hu
  obtain ⟨p2, w2, wT, hf2, hfT, hiT, hnT⟩ := findBlk_perm mem s sT t hs hwT hpT hu
  rw [hf] at hf2
  cases hf2
  refine ⟨sH, sT, p, w, wH, wT, hH, hT, hf, hfH, hfT, ?_, ?_, ?_, ?_⟩
  · rw [findBlk1_of_findBlk mem sH t p wH hfH, findBlk1_of_findBlk mem s t p w hf]
  · rw [findBlk1_of_findBlk mem sT t p wT hfT, findBlk1_of_findBlk mem s t p w hf]
  · intro X hX
    exact ⟨(hiH X hX).2, (hiT X hX).2⟩
  · intro hp
    exact ⟨(hnH hp).2, (hnT hp).2⟩

/-- Witness of C17 on `demoSet` over `tagMem`, whose tags are all different, with
the member block 3 and the tag of block 1. -/
theorem findBlk_stable_witness :
    demoSet.WellFormed ∧ UniqueTags tagMem demoSet ∧ 3 ∈ demoSet.blks ∧
      ∃ sH sT p w wH wT, moveToHead demoSet 3 = .ok sH ∧ moveToTail demoSet 3 = .ok sT ∧
        findBlk tagMem demoSet 101 = .ok (p, w) ∧ findBlk tagMem sH 101 = .ok (p, wH) ∧
        findBlk tagMem sT 101 = .ok (p, wT) ∧
        findBlk1 tagMem sH 101 = findBlk1 tagMem demoSet 101 ∧
        findBlk1 tagMem sT 101 = findBlk1 tagMem demoSet 101 ∧
        (∀ X, p = some X → rd sH.blks wH = some X ∧ rd sT.blks wT = some X) ∧
        (p = none → wH = sH.assoc ∧ wT = sT.assoc) :=
  ⟨by decide, by decide, by decide,
    findBlk_stable tagMem demoSet 3 101 (by decide) (by decide) (by decide)⟩

end CacheSet

namespace CacheSet

/-- A block that the 4-argument lookup returns is valid and has the tag asked
for. -/
theorem findBlk4_some (mem : BlkRef → CacheBlk) (s : CacheSet) (r p l : Int) (t : Addr)
    (X : BlkRef) (h : findBlk4 mem s r p l t = some X) :
    (mem X).isValid = true ∧ (mem X).tag = t := by
  unfold findBlk4 at h
  cases hml : mapLookup s r p l with
  | none => rw [hml] at h; cases h
  | some Y =>
    rw [hml] at h
    dsimp only at h
    split_ifs at h with hc
    cases h
    exact hc

/-- C18: the two lookup paths agree when the index is consistent with the slots.
On every set whose array has `assoc` slots and in which at most one valid block
carries any given tag, if `findBlk(r, p, l, t)` returns a block `X` and `X`
occupies some slot, then `findBlk(t)` returns the same block `X`, with a `way_id`
that is a slot index of `X`; and without the membership hypothesis there is a
state in which `findBlk(r, p, l, t)` returns a block while `findBlk(t)` returns
`NULL`. -/
theorem lookup_paths_agree :
    (∀ (mem : BlkRef → CacheBlk) (s : CacheSet) (r p l : Int) (t : Addr) (X : BlkRef),
        s.WellFormed → UniqueTags mem s → findBlk4 mem s r p l t = some X → X ∈ s.blks →
        ∃ w, findBlk mem s t = .ok (some X, w) ∧ findBlk1 mem s t = .ok (some X) ∧
          rd s.blks w = some X) ∧
      (∃ (mem : BlkRef → CacheBlk) (s : CacheSet) (r p l : Int) (t : Addr) (X : BlkRef),
        s.WellFormed ∧ UniqueTags mem s ∧ X ∉ s.blks ∧ findBlk4 mem s r p l t = some X ∧
          findBlk mem s t = .ok (none, s.assoc) ∧ findBlk1 mem s t = .ok none) := by
  constructor
  · intro mem s r p l t X hs hu h4 hX
    obtain ⟨hv, ht⟩ := findBlk4_some mem s r p l t X h4
    rcases findBlk_cases mem s t hs with ⟨hmiss, _⟩ | ⟨pre, b, post, hblks, hb, _, hres⟩
    · exact absurd ⟨ht, hv⟩ (hmiss X hX)
    · have hbmem : b ∈ s.blks := by rw [hblks]; simp
      have heq : b = X := hu b hbmem X hX hb.2 hv (hb.1.trans ht.symm)
      subst heq
      exact ⟨_, hres, findBlk1_of_findBlk mem s t _ _ hres,
        by rw [hblks]; exact rd_length_append pre b post⟩
  · have hmiss : findBlk staleMem staleSet 77 = .ok (none, staleSet.assoc) := by
      have := findBlk_loop_miss staleMem staleSet 77 (by decide) staleSet.blks [] rfl
        (by decide)
      simpa [findBlk] using this
    exact ⟨staleMem, staleSet, 7, 1, 3, 77, 9, by decide, by decide, by decide, by decide,
      hmiss, findBlk1_of_findBlk _ _ _ _ _ hmiss⟩

/-- Witness of C18 on `demoSet` over `tagMem`: the index maps `(7, 1, 3)` to block
2, which is in slot 1 and has tag 102, and the tag scan for 102 returns block 2. -/
theorem lookup_paths_agree_witness :
    demoSet.WellFormed ∧ UniqueTags tagMem demoSet ∧
      findBlk4 tagMem demoSet 7 1 3 102 = some 2 ∧ 2 ∈ demoSet.blks ∧
      ∃ w, findBlk tagMem demoSet 102 = .ok (some 2, w) ∧
        findBlk1 tagMem demoSet 102 = .ok (some 2) ∧ rd demoSet.blks w = some 2 :=
  ⟨by decide, by decide, by decide, by decide,
    lookup_paths_agree.1 tagMem demoSet 7 1 3 102 2 (by decide) (by decide) (by decide)
      (by decide)⟩

/-- C19: the last move of a block wins. On a set whose `N ≥ 1` slot references
are pairwise distinct and for a member block `b`, `moveToHead(b)` followed by
`moveToTail(b)` gives what `moveToTail(b)` alone gives, and `moveToTail(b)`
followed by `moveToHead(b)` gives what `moveToHead(b)` alone gives; in both
results the blocks other than `b` are in their original order. -/
theorem last_move_wins (s : CacheSet) (b : BlkRef) (hs : s.WellFormed)
    (hd : s.blks.Nodup) (hb : b ∈ s.blks) :
    ∃ sH sT, moveToHead s b = .ok sH ∧ moveToTail s b = .ok sT ∧
      moveToTail sH b = .ok sT ∧ moveToHead sT b = .ok sH ∧
      sT.blks.filter (fun x => decide (x ≠ b)) = s.blks.filter (fun x => decide (x ≠ b)) ∧
      sH.blks.filter (fun x => decide (x ≠ b)) = s.blks.filter (fun x => decide (x ≠ b)) := by
  obtain ⟨pre, post, hblks, hpre, hH⟩ := moveToHead_of_mem s b hs hb
  have hnot : b ∉ pre ++ post := by
    have := hd
    rw [hblks, List.nodup_middle, List.nodup_cons] at this
    exact this.1
  have hpost : b ∉ post := fun h => hnot (List.mem_append_right _ h)
  have hT := moveToTail_of_split s b hs pre post hblks hpost
  have hlen : s.assoc = ((pre ++ post).length : Int) + 1 := by
    unfold WellFormed at hs
    rw [hs, hblks]; simp; omega
  have hHT := moveToTail_of_split { s with blks := b :: (pre ++ post) } b
    (by unfold WellFormed; rw [hlen]; simp) [] (pre ++ post) rfl hnot
  have hTH := moveToHead_of_split { s with blks := pre ++ post ++ [b] } b
    (by unfold WellFormed; rw [hlen]; simp; omega) (pre ++ post) [] rfl hnot
  have hfilter : ∀ l : List BlkRef, b ∉ l → l.filter (fun x => decide (x ≠ b)) = l := by
    intro l hl
    rw [List.filter_eq_self]
    intro a ha
    simp only [ne_eq, decide_eq_true_eq]
    rintro rfl
    exact hl ha
  refine ⟨_, _, hH, hT, ?_, ?_, ?_, ?_⟩
  · simpa using hHT
  · simpa using hTH
  · rw [hblks]
    simp only [List.filter_append, List.filter_cons, List.filter_nil, ne_eq, not_true_eq_false,
      decide_False, Bool.false_eq_true, if_false, List.append_nil]
  · rw [hblks]
    simp only [List.filter_append, List.filter_cons, ne_eq, not_true_eq_false,
      decide_False, Bool.false_eq_true, if_false]

/-- Witness of C19 on `demoSet` with block 2. -/
theorem last_move_wins_witness :
    demoSet.WellFormed ∧ demoSet.blks.Nodup ∧ 2 ∈ demoSet.blks ∧
      ∃ sH sT, moveToHead demoSet 2 = .ok sH ∧ moveToTail demoSet 2 = .ok sT ∧
        moveToTail sH 2 = .ok sT ∧ moveToHead sT 2 = .ok sH ∧
        sT.blks.filter (fun x => decide (x ≠ 2))
          = demoSet.blks.filter (fun x => decide (x ≠ 2)) ∧
        sH.blks.filter (fun x => decide (x ≠ 2))
          = demoSet.blks.filter (fun x => decide (x ≠ 2)) :=
  ⟨by decide, by decide, by decide,
    last_move_wins demoSet 2 (by decide) (by decide) (by decide)⟩

end CacheSet
